import Mathlib

/-!
Verification of the peer manager in `src/node/network/src/peer_manager/mod.rs`.

The development shallowly embeds the peer manager's data model and operations
over `ℚ` and `ℕ`.  IEEE-754 single precision (`f32`) arithmetic, which the
capacity policy uses, is modelled exactly: an `f32` value is a rational number,
and every operation rounds its exact rational result to 24 significant bits
with round-to-nearest, ties-to-even.  The source's values never approach the
overflow or subnormal ranges, so this model is exact on all inputs that occur.

The file is organised as definitions first (the embedding of the source),
then theorems.
-/

namespace PeerManagerProof

/-! ## Definitions: exact model of f32 rounding -/

/-- Fuel-driven base-2 logarithm on `ℕ` (structural recursion so that the
kernel can evaluate it); correct whenever `n < 2^fuel`. -/
def log2fuel : ℕ → ℕ → ℕ
  | 0, _ => 0
  | f + 1, n => if n ≤ 1 then 0 else log2fuel f (n / 2) + 1

/-- Base-2 logarithm, exact on every `n < 2^300` (every value in this
development is far smaller: `usize` inputs are below `2^64`). -/
def nlog2 (n : ℕ) : ℕ := log2fuel 300 n

/-- The binade exponent of `x`: the `k` with `2^k ≤ x < 2^(k+1)`.
Computed through `nlog2` of `⌊x·2^30⌋`, which is correct for all
`x ≥ 2^(-30)`; every positive value the peer manager rounds is at least
`0.09`. -/
def floorLog2 (x : ℚ) : ℤ :=
  (nlog2 (⌊x * 2^30⌋).toNat : ℤ) - 30

/-- Round a rational to the nearest integer, ties to even
(the IEEE-754 default rounding used by Rust's `f32` arithmetic). -/
def roundNE (y : ℚ) : ℤ :=
  if y - ⌊y⌋ < 1/2 then ⌊y⌋
  else if y - ⌊y⌋ = 1/2 then (if ⌊y⌋ % 2 = 0 then ⌊y⌋ else ⌊y⌋ + 1)
  else ⌊y⌋ + 1

/-- Round a nonnegative rational to the nearest `f32` (24-bit significand,
ties to even).  Exact for the normal range used by the peer manager. -/
def rnd24 (x : ℚ) : ℚ :=
  if x ≤ 0 then 0
  else (roundNE (x * 2 ^ (23 - floorLog2 x)) : ℚ) * 2 ^ (floorLog2 x - 23)

/-- The exact value of an `f32` product of two `f32` values. -/
def f32mul (a b : ℚ) : ℚ := rnd24 (a * b)

/-- The exact value of an `f32` sum of two `f32` values. -/
def f32add (a b : ℚ) : ℚ := rnd24 (a + b)

/-- `T as f32` for a `usize` value `T`. -/
def f32ofNat (T : ℕ) : ℚ := rnd24 (T : ℚ)

/-- `x.ceil() as usize` for a nonnegative `f32` value `x`.  `f32::ceil` is
exact (every `f32` of magnitude at least `2^23` is already an integer), and
the cast of the integral result to `usize` is value-preserving in the ranges
that occur here. -/
def f32ceilToNat (x : ℚ) : ℕ := (Int.ceil x).toNat

/-! ## Definitions: the capacity constants of `mod.rs`

Each constant is the exact rational value of the corresponding `f32` literal:
a Rust `f32` literal denotes its decimal value rounded to the nearest `f32`.
The theorems `PEER_EXCESS_FACTOR_correct` and friends below verify the
rounding of each literal against the `rnd24` model.
-/

/-- Exact value of `PEER_EXCESS_FACTOR: f32 = 0.1`. -/
def PEER_EXCESS_FACTOR : ℚ := 13421773 / 2^27

/-- Exact value of `TARGET_OUTBOUND_ONLY_FACTOR: f32 = 0.3`. -/
def TARGET_OUTBOUND_ONLY_FACTOR : ℚ := 10066330 / 2^25

/-- Exact value of `MIN_OUTBOUND_ONLY_FACTOR: f32 = 0.2`. -/
def MIN_OUTBOUND_ONLY_FACTOR : ℚ := 13421773 / 2^26

/-- Exact value of `PRIORITY_PEER_EXCESS: f32 = 0.2`. -/
def PRIORITY_PEER_EXCESS : ℚ := 13421773 / 2^26

/-! ## Definitions: the capacity functions of `PeerManager`

`fn max_peers(&self) -> usize {
   (self.target_peers as f32 * (1.0 + PEER_EXCESS_FACTOR)).ceil() as usize }`
and its four siblings, with every `f32` operation modelled by exact rounding.
-/

/-- `PeerManager::max_peers`. -/
def max_peers (T : ℕ) : ℕ :=
  f32ceilToNat (f32mul (f32ofNat T) (f32add 1 PEER_EXCESS_FACTOR))

/-- `PeerManager::max_priority_peers`. -/
def max_priority_peers (T : ℕ) : ℕ :=
  f32ceilToNat (f32mul (f32ofNat T)
    (f32add (f32add 1 PEER_EXCESS_FACTOR) PRIORITY_PEER_EXCESS))

/-- `PeerManager::min_outbound_only_peers`. -/
def min_outbound_only_peers (T : ℕ) : ℕ :=
  f32ceilToNat (f32mul (f32ofNat T) MIN_OUTBOUND_ONLY_FACTOR)

/-- `PeerManager::target_outbound_peers`. -/
def target_outbound_peers (T : ℕ) : ℕ :=
  f32ceilToNat (f32mul (f32ofNat T) TARGET_OUTBOUND_ONLY_FACTOR)

/-- `PeerManager::max_outbound_dialing_peers`.  `PRIORITY_PEER_EXCESS / 2.0`
is an exact f32 operation (halving an even significand). -/
def max_outbound_dialing_peers (T : ℕ) : ℕ :=
  f32ceilToNat (f32mul (f32ofNat T)
    (f32add (f32add 1 PEER_EXCESS_FACTOR) (PRIORITY_PEER_EXCESS / 2)))

/-- The exact-rational ceiling `⌈T·f⌉` used by the specification's formulas. -/
def ceilMul (T : ℕ) (f : ℚ) : ℕ := (Int.ceil ((T : ℚ) * f)).toNat

/-! ## Definitions: RPC types and the RPC-error mapping of `handle_rpc_error`

The payloads of the error variants (`String`s, IO errors) are irrelevant to
the match in `handle_rpc_error` and are omitted.
-/

/-- `crate::rpc::Protocol`: the protocols matched in `handle_rpc_error`. -/
inductive Protocol
  | Ping
  | Goodbye
  | Status
  | DataByHash
  | AnswerFile
  | GetChunks
deriving DecidableEq

/-- `crate::rpc::RPCResponseErrorCode`: the codes matched in
`handle_rpc_error`. -/
inductive RPCResponseErrorCode
  | Unknown
  | ResourceUnavailable
  | ServerError
  | InvalidRequest
  | RateLimited
deriving DecidableEq

/-- `crate::rpc::RPCError` (payload data elided). -/
inductive RPCError
  | IncompleteStream
  | InternalError
  | HandlerRejected
  | InvalidData
  | IoError
  | ErrorResponse (code : RPCResponseErrorCode)
  | SSZDecodeError
  | UnsupportedProtocol
  | StreamTimeout
  | NegotiationTimeout
  | Disconnected
deriving DecidableEq

/-- `ConnectionDirection` from `peerdb::peer_info`. -/
inductive ConnectionDirection
  | Incoming
  | Outgoing
deriving DecidableEq

/-- `peerdb::score::PeerAction` (the four variants used by the manager). -/
inductive PeerAction
  | Fatal
  | LowToleranceError
  | MidToleranceError
  | HighToleranceError
deriving DecidableEq

/-- The error-to-action match of `PeerManager::handle_rpc_error`
(`mod.rs` lines 423-504): `none` models the `return` arms, `some a` the
fall-through to `report_peer(..)` with action `a`. -/
def handle_rpc_error_action (protocol : Protocol) (err : RPCError)
    (direction : ConnectionDirection) : Option PeerAction :=
  match err with
  | .IncompleteStream => some .MidToleranceError
  | .InternalError => none
  | .HandlerRejected => none
  | .InvalidData => some .Fatal
  | .IoError => some .HighToleranceError
  | .ErrorResponse code =>
    match code with
    | .Unknown => some .HighToleranceError
    | .ResourceUnavailable => some .Fatal
    | .ServerError => some .MidToleranceError
    | .InvalidRequest => some .HighToleranceError
    | .RateLimited =>
      match protocol with
      | .Ping => some .MidToleranceError
      | .Goodbye => some .LowToleranceError
      | .Status => some .LowToleranceError
      | .DataByHash => some .MidToleranceError
      | .AnswerFile => some .MidToleranceError
      | .GetChunks => some .MidToleranceError
  | .SSZDecodeError => some .Fatal
  | .UnsupportedProtocol =>
    match protocol with
    | .Ping => some .Fatal
    | .Goodbye => none
    | .Status => some .LowToleranceError
    | .DataByHash => none
    | .AnswerFile => none
    | .GetChunks => none
  | .StreamTimeout =>
    match direction with
    | .Incoming => none
    | .Outgoing =>
      match protocol with
      | .Ping => some .LowToleranceError
      | .Goodbye => none
      | .Status => none
      | .DataByHash => some .MidToleranceError
      | .AnswerFile => some .MidToleranceError
      | .GetChunks => some .MidToleranceError
  | .NegotiationTimeout => some .LowToleranceError
  | .Disconnected => none

/-- The specification's RPC-error table (section 4.5 of the spec), written
independently from its rows for the refinement comparison with
`handle_rpc_error_action`. -/
def spec_rpc_error_table (protocol : Protocol) (err : RPCError)
    (direction : ConnectionDirection) : Option PeerAction :=
  match err, protocol, direction with
  | .IncompleteStream, _, _ => some .MidToleranceError
  | .InternalError, _, _ => none
  | .HandlerRejected, _, _ => none
  | .Disconnected, _, _ => none
  | .InvalidData, _, _ => some .Fatal
  | .SSZDecodeError, _, _ => some .Fatal
  | .IoError, _, _ => some .HighToleranceError
  | .ErrorResponse .Unknown, _, _ => some .HighToleranceError
  | .ErrorResponse .ResourceUnavailable, _, _ => some .Fatal
  | .ErrorResponse .ServerError, _, _ => some .MidToleranceError
  | .ErrorResponse .InvalidRequest, _, _ => some .HighToleranceError
  | .ErrorResponse .RateLimited, .Ping, _ => some .MidToleranceError
  | .ErrorResponse .RateLimited, .Goodbye, _ => some .LowToleranceError
  | .ErrorResponse .RateLimited, .Status, _ => some .LowToleranceError
  | .ErrorResponse .RateLimited, .DataByHash, _ => some .MidToleranceError
  | .ErrorResponse .RateLimited, .AnswerFile, _ => some .MidToleranceError
  | .ErrorResponse .RateLimited, .GetChunks, _ => some .MidToleranceError
  | .UnsupportedProtocol, .Ping, _ => some .Fatal
  | .UnsupportedProtocol, .Goodbye, _ => none
  | .UnsupportedProtocol, .Status, _ => some .LowToleranceError
  | .UnsupportedProtocol, .DataByHash, _ => none
  | .UnsupportedProtocol, .AnswerFile, _ => none
  | .UnsupportedProtocol, .GetChunks, _ => none
  | .StreamTimeout, _, .Incoming => none
  | .StreamTimeout, .Ping, .Outgoing => some .LowToleranceError
  | .StreamTimeout, .Goodbye, .Outgoing => none
  | .StreamTimeout, .Status, .Outgoing => none
  | .StreamTimeout, .DataByHash, .Outgoing => some .MidToleranceError
  | .StreamTimeout, .AnswerFile, .Outgoing => some .MidToleranceError
  | .StreamTimeout, .GetChunks, .Outgoing => some .MidToleranceError
  | .NegotiationTimeout, _, _ => some .LowToleranceError

/-! ## Definitions: the peer database model

The `peerdb` module is not part of the given sources; only its callers in
`mod.rs` are.  The definitions below are therefore modelled from the
specification (each doc comment says so), faithful to the specification's
words, while everything in `PeerManagerState` and the manager operations
further down is translated from `mod.rs` itself.

Time is modelled by a natural-number clock `now` carried in the manager
state; `Instant`s (dial start times, `min_ttl` deadlines) are naturals.
-/

/-- Peer identifiers (opaque 32-byte identities in the source). -/
abbrev PeerId := ℕ

/-- `PeerConnectionStatus`.  Modelled from the spec: one of Dialing,
Connected (with inbound/outbound connection counts), Disconnecting (with a
pending-ban flag), Disconnected, Banned, Unknown. -/
inductive PeerConnectionStatus
  | Dialing (since : ℕ)
  | Connected (n_in n_out : ℕ)
  | Disconnecting (will_ban : Bool)
  | Disconnected
  | Banned
  | Unknown
deriving DecidableEq

/-- A peer record.  Modelled from the spec: connection status, score and
optional `min_ttl` deadline; the remaining fields of the source's `PeerInfo`
(addresses, client kind, sync status) are collapsed into `other`, an opaque
payload used to state frame conditions. -/
structure PeerRec where
  status : PeerConnectionStatus := .Unknown
  score : ℚ := 0
  min_ttl : Option ℕ := none
  other : ℕ := 0
deriving DecidableEq

/-- The peer database: an association list from peer id to record.
Modelled from the spec (`PeerDB`: a map of records). -/
abbrev PeerDBM := List (PeerId × PeerRec)

/-- Record lookup. -/
def dbGet : PeerDBM → PeerId → Option PeerRec
  | [], _ => none
  | (q, r) :: t, p => if p = q then some r else dbGet t p

/-- Record insertion or replacement. -/
def dbSet : PeerDBM → PeerId → PeerRec → PeerDBM
  | [], p, r => [(p, r)]
  | (q, s) :: t, p, r => if p = q then (p, r) :: t else (q, s) :: dbSet t p r

/-- Apply `f` to the record of `p`, if present. -/
def dbModify (db : PeerDBM) (p : PeerId) (f : PeerRec → PeerRec) : PeerDBM :=
  match db with
  | [] => []
  | (q, s) :: t => if p = q then (q, f s) :: t else (q, s) :: dbModify t p f

/-- Whether a status is Connected. -/
def isConnectedStatus : PeerConnectionStatus → Bool
  | .Connected _ _ => true
  | _ => false

/-- Whether a status is Connected or Dialing. -/
def isConnectedOrDialingStatus : PeerConnectionStatus → Bool
  | .Connected _ _ => true
  | .Dialing _ => true
  | _ => false

/-- `PeerInfo::is_outbound_only`.  Modelled from the spec: Connected with no
inbound and at least one outbound connection. -/
def is_outbound_only (r : PeerRec) : Bool :=
  match r.status with
  | .Connected 0 (_ + 1) => true
  | _ => false

/-- `PeerInfo::has_future_duty`.  Modelled from the spec:
`min_ttl > now`. -/
def has_future_duty (now : ℕ) (r : PeerRec) : Bool :=
  match r.min_ttl with
  | some t => decide (now < t)
  | none => false

/-- `NetworkGlobals::connected_peers`.  Modelled from the spec: the number
of records in Connected status. -/
def connectedCount (db : PeerDBM) : ℕ :=
  db.countP (fun pr => isConnectedStatus pr.2.status)

/-- `NetworkGlobals::connected_or_dialing_peers`.  Modelled from the spec. -/
def connectedOrDialingCount (db : PeerDBM) : ℕ :=
  db.countP (fun pr => isConnectedOrDialingStatus pr.2.status)

/-- `NetworkGlobals::connected_outbound_only_peers`.  Modelled from the
spec. -/
def connectedOutboundOnlyCount (db : PeerDBM) : ℕ :=
  db.countP (fun pr => is_outbound_only pr.2)

/-- `peerdb::BanResult`. -/
inductive BanResult
  | NotBanned
  | BannedPeer
  | BannedIp
deriving DecidableEq

/-- `PeerDB::ban_status`.  Modelled from the spec: `BannedPeer` for a record
in Banned status, otherwise `NotBanned` (the IP-ban bookkeeping is outside
the modelled state, so `BannedIp` is never produced here). -/
def ban_status (db : PeerDBM) (p : PeerId) : BanResult :=
  match dbGet db p with
  | some r => match r.status with
    | .Banned => .BannedPeer
    | _ => .NotBanned
  | none => .NotBanned

/-- `PeerDB::should_dial`.  Modelled from the spec: true iff the status is
Disconnected or Unknown (an absent record counts as unknown), which in
particular excludes Banned, Dialing and Connected peers. -/
def should_dial (db : PeerDBM) (p : PeerId) : Bool :=
  match dbGet db p with
  | none => true
  | some r => match r.status with
    | .Disconnected => true
    | .Unknown => true
    | _ => false

/-- `PeerDB::update_min_ttl`.  Modelled from the spec: write the new
`min_ttl` into the record. -/
def update_min_ttl (db : PeerDBM) (p : PeerId) (t : ℕ) : PeerDBM :=
  dbModify db p (fun r => { r with min_ttl := some t })

/-- `PeerDB::dialing_peer`.  Modelled from the spec: transition the record
(created with defaults if absent) to Dialing. -/
def dialing_peer (db : PeerDBM) (p : PeerId) (now : ℕ) : PeerDBM :=
  match dbGet db p with
  | some r => dbSet db p { r with status := .Dialing now }
  | none => dbSet db p { status := .Dialing now }

/-- `PeerDB::connect_ingoing`.  Modelled from the spec: transition to
Connected, counting one more inbound connection. -/
def connect_ingoing (db : PeerDBM) (p : PeerId) : PeerDBM :=
  match dbGet db p with
  | some r => dbSet db p { r with status :=
      match r.status with
      | .Connected a b => .Connected (a + 1) b
      | _ => .Connected 1 0 }
  | none => dbSet db p { status := .Connected 1 0 }

/-- `PeerDB::connect_outgoing`.  Modelled from the spec: transition to
Connected, counting one more outbound connection. -/
def connect_outgoing (db : PeerDBM) (p : PeerId) : PeerDBM :=
  match dbGet db p with
  | some r => dbSet db p { r with status :=
      match r.status with
      | .Connected a b => .Connected a (b + 1)
      | _ => .Connected 0 1 }
  | none => dbSet db p { status := .Connected 0 1 }

/-- `PeerDB::notify_disconnecting`.  Modelled from the spec: mark a
Connected record as Disconnecting (guarded, so other statuses are kept). -/
def notify_disconnecting (db : PeerDBM) (p : PeerId) (will_ban : Bool) : PeerDBM :=
  dbModify db p (fun r =>
    match r.status with
    | .Connected _ _ => { r with status := .Disconnecting will_ban }
    | _ => r)

/-- `peerdb::BanOperation`. -/
inductive BanOperation
  | DisconnectThePeer
  | PeerDisconnecting
  | ReadyToBan (ips : List ℕ)
deriving DecidableEq

/-- `peerdb::ScoreUpdateResult`. -/
inductive ScoreUpdateResult
  | NoAction
  | Disconnect
  | Ban (op : BanOperation)
  | Unbanned (ips : List ℕ)
deriving DecidableEq

/-- `PeerDB::inject_disconnect`.  Modelled from the spec: a record in
Disconnecting with `will_ban = true` becomes Banned and yields `ReadyToBan`;
any other record moves to Disconnected.  The purge of aged-out records is
outside the modelled state, so the purged list is always empty. -/
def db_inject_disconnect (db : PeerDBM) (p : PeerId) :
    PeerDBM × Option BanOperation × List (PeerId × List ℕ) :=
  match dbGet db p with
  | some r =>
    match r.status with
    | .Disconnecting true => (dbSet db p { r with status := .Banned }, some (.ReadyToBan []), [])
    | _ => (dbSet db p { r with status := .Disconnected }, none, [])
  | none => (db, none, [])

/-- The score threshold below which a peer is banned (spec section 4.1). -/
def BANNED_THRESHOLD : ℚ := -50

/-- One lazy decay step.  Modelled from the spec: decay moves the score
toward `0`; the exact rate is immaterial to the claims, a halving is used. -/
def decayScore (s : ℚ) : ℚ := s / 2

/-- `PeerDB::update_scores`.  Modelled from the spec: apply decay to every
record and report classification changes.  Decay moves scores toward zero,
so no downward threshold crossing can occur; the only reportable change is a
Banned peer whose score recovered above `BANNED_THRESHOLD`.  Connection
statuses are unchanged. -/
def db_update_scores (db : PeerDBM) : PeerDBM × List (PeerId × ScoreUpdateResult) :=
  (db.map (fun pr => (pr.1, { pr.2 with score := decayScore pr.2.score })),
   db.filterMap (fun pr =>
     if pr.2.status = .Banned ∧ pr.2.score ≤ BANNED_THRESHOLD ∧
         BANNED_THRESHOLD < decayScore pr.2.score
     then some (pr.1, .Unbanned [])
     else none))

/-- `DIAL_TIMEOUT` (seconds) for `cleanup_dialing_peers` (spec: e.g. 15s). -/
def DIAL_TIMEOUT : ℕ := 15

/-- `PeerDB::cleanup_dialing_peers`.  Modelled from the spec: a record
Dialing for longer than `DIAL_TIMEOUT` transitions to Disconnected. -/
def cleanup_dialing_peers (db : PeerDBM) (now : ℕ) : PeerDBM :=
  db.map (fun pr =>
    match pr.2.status with
    | .Dialing s =>
      if s + DIAL_TIMEOUT < now then (pr.1, { pr.2 with status := .Disconnected })
      else pr
    | _ => pr)

/-- Insertion into a list sorted by ascending score. -/
def insertByScore (x : PeerId × PeerRec) : List (PeerId × PeerRec) → List (PeerId × PeerRec)
  | [] => [x]
  | y :: t => if x.2.score ≤ y.2.score then x :: y :: t else y :: insertByScore x t

/-- Insertion sort by ascending score. -/
def sortByScore : List (PeerId × PeerRec) → List (PeerId × PeerRec)
  | [] => []
  | x :: t => insertByScore x (sortByScore t)

/-- `PeerDB::worst_connected_peers`.  Modelled from the spec: the Connected
records sorted ascending by score. -/
def worst_connected_peers (db : PeerDBM) : List (PeerId × PeerRec) :=
  sortByScore (db.filter (fun pr => isConnectedStatus pr.2.status))

/-! ## Definitions: the `PeerManager` state and operations (from `mod.rs`) -/

/-- `GoodbyeReason` (the variants used by the manager). -/
inductive GoodbyeReason
  | ClientShutdown
  | IrrelevantNetwork
  | Fault
  | Unknown
  | BadScore
  | TooManyPeers
deriving DecidableEq

/-- `PeerManagerEvent`. -/
inductive PeerManagerEvent
  | PeerConnectedIncoming (p : PeerId)
  | PeerConnectedOutgoing (p : PeerId)
  | PeerDisconnected (p : PeerId)
  | Status (p : PeerId)
  | Ping (p : PeerId)
  | DisconnectPeer (p : PeerId) (reason : GoodbyeReason)
  | Banned (p : PeerId) (ips : List ℕ)
  | UnBanned (p : PeerId) (ips : List ℕ)
  | DiscoverPeers (n : ℕ)
deriving DecidableEq

/-- `config::Filters` (an optional dial-peer predicate). -/
structure Filters where
  dial_peer_filter : Option (PeerId → Bool) := none

/-- The `PeerManager` state: the peer database handle, the three
`HashSetDelay` timer sets (modelled by their membership sets), the event
queue, and the configuration fields of the struct in `mod.rs`.  `now` is the
model clock. -/
structure PeerManagerState where
  db : PeerDBM
  inbound_ping_peers : Finset PeerId := ∅
  outbound_ping_peers : Finset PeerId := ∅
  status_peers : Finset PeerId := ∅
  events : List PeerManagerEvent := []
  target_peers : ℕ
  discovery_enabled : Bool := true
  metrics_enabled : Bool := false
  filters : Filters := {}
  now : ℕ := 0

/-- Push one event at the back of the queue (`self.events.push(..)`). -/
def pushEvent (st : PeerManagerState) (e : PeerManagerEvent) : PeerManagerState :=
  { st with events := st.events ++ [e] }

/-- `PeerManager::handle_ban_operation` (`mod.rs` lines 216-244). -/
def handle_ban_operation (st : PeerManagerState) (p : PeerId)
    (op : BanOperation) (reason : Option GoodbyeReason) : PeerManagerState :=
  match op with
  | .DisconnectThePeer => pushEvent st (.DisconnectPeer p (reason.getD .BadScore))
  | .PeerDisconnecting => st
  | .ReadyToBan ips => pushEvent st (.Banned p ips)

/-- `PeerManager::handle_score_action` (`mod.rs` lines 180-213). -/
def handle_score_action (st : PeerManagerState) (p : PeerId)
    (action : ScoreUpdateResult) (reason : Option GoodbyeReason) : PeerManagerState :=
  match action with
  | .Ban op => handle_ban_operation st p op reason
  | .Disconnect => pushEvent st (.DisconnectPeer p .BadScore)
  | .NoAction => st
  | .Unbanned ips => pushEvent st (.UnBanned p ips)

/-- `ConnectingType` (`mod.rs` lines 1100-1113; multiaddrs elided). -/
inductive ConnectingType
  | Dialing
  | IngoingConnected
  | OutgoingConnected

/-- `PeerManager::inject_peer_connection` (`mod.rs` lines 660-701).  The
source checks `ban_status` only to log an error, then proceeds; for
`Dialing` it returns early (before the status timer is started); it always
returns `true`. -/
def inject_peer_connection (st : PeerManagerState) (p : PeerId)
    (connection : ConnectingType) : Bool × PeerManagerState :=
  match connection with
  | .Dialing => (true, { st with db := dialing_peer st.db p st.now })
  | .IngoingConnected =>
    let st1 := { st with db := connect_ingoing st.db p,
                         inbound_ping_peers := insert p st.inbound_ping_peers }
    (true, { st1 with status_peers := insert p st1.status_peers })
  | .OutgoingConnected =>
    let st1 := { st with db := connect_outgoing st.db p,
                         outbound_ping_peers := insert p st.outbound_ping_peers }
    (true, { st1 with status_peers := insert p st1.status_peers })

/-- `PeerManager::inject_dialing`. -/
def inject_dialing (st : PeerManagerState) (p : PeerId) : PeerManagerState :=
  (inject_peer_connection st p .Dialing).2

/-- `PeerManager::inject_connect_ingoing`. -/
def inject_connect_ingoing (st : PeerManagerState) (p : PeerId) :
    Bool × PeerManagerState :=
  inject_peer_connection st p .IngoingConnected

/-- `PeerManager::inject_connect_outgoing`. -/
def inject_connect_outgoing (st : PeerManagerState) (p : PeerId) :
    Bool × PeerManagerState :=
  inject_peer_connection st p .OutgoingConnected

/-- `PeerManager::inject_disconnect` (`mod.rs` lines 631-652). -/
def inject_disconnect (st : PeerManagerState) (p : PeerId) : PeerManagerState :=
  let res := db_inject_disconnect st.db p
  let st1 := { st with db := res.1 }
  let st2 := match res.2.1 with
    | some op => handle_ban_operation st1 p op none
    | none => st1
  let st3 := { st2 with
    inbound_ping_peers := st2.inbound_ping_peers.erase p,
    outbound_ping_peers := st2.outbound_ping_peers.erase p,
    status_peers := st2.status_peers.erase p }
  { st3 with events := st3.events ++
      res.2.2.map (fun pu => PeerManagerEvent.UnBanned pu.1 pu.2) }

/-- `PeerManager::disconnect_peer` (`mod.rs` lines 704-711). -/
def disconnect_peer (st : PeerManagerState) (p : PeerId)
    (reason : GoodbyeReason) : PeerManagerState :=
  let st1 := pushEvent st (.DisconnectPeer p reason)
  { st1 with db := notify_disconnecting st1.db p false }

/-- A `usize` subtraction as compiled in release mode: wrapping modulo
`2^64`.  (Debug builds panic on underflow instead.) -/
def usizeSub (a b : ℕ) : ℕ := (a + 2^64 - b) % 2^64

/-- `PeerManager::maintain_peer_count` (`mod.rs` lines 715-754).  The second
branch subtracts `peer_count` with an unchecked `usize` subtraction; the
first branch's subtraction is guarded by its condition. -/
def maintain_peer_count (st : PeerManagerState) (dialing_peers : ℕ) :
    PeerManagerState :=
  if st.discovery_enabled then
    let peer_count := connectedOrDialingCount st.db
    let outbound_only_peer_count := connectedOutboundOnlyCount st.db
    let wanted_peers :=
      if peer_count < st.target_peers - dialing_peers then
        min (usizeSub (st.target_peers - dialing_peers) peer_count) 16
      else if outbound_only_peer_count < min_outbound_only_peers st.target_peers
          ∧ peer_count < max_outbound_dialing_peers st.target_peers then
        min (usizeSub (max_outbound_dialing_peers st.target_peers - dialing_peers)
          peer_count) 16
      else 0
    if wanted_peers ≠ 0 then pushEvent st (.DiscoverPeers wanted_peers) else st
  else st

/-- The admission loop of `PeerManager::peers_discovered` (`mod.rs` lines
254-282): `connected_or_dialing` is read once before the loop; the length of
the accumulated dial list enters the capacity conditions; `min_ttl`s of
admitted peers are written to the database immediately. -/
def peers_discovered_loop (cod maxPriority maxPeersN : ℕ) :
    List (PeerId × Option ℕ) → PeerDBM → List PeerId → PeerDBM × List PeerId
  | [], db, acc => (db, acc)
  | (p, min_ttl) :: rest, db, acc =>
    if ((min_ttl.isSome ∧ cod + acc.length < maxPriority)
        ∨ cod + acc.length < maxPeersN) ∧ should_dial db p then
      let db' := match min_ttl with
        | some t => update_min_ttl db p t
        | none => db
      peers_discovered_loop cod maxPriority maxPeersN rest db' (acc ++ [p])
    else peers_discovered_loop cod maxPriority maxPeersN rest db acc

/-- `PeerManager::peers_discovered` (`mod.rs` lines 254-292): the admission
loop, then the optional `dial_peer_filter` retain, then
`maintain_peer_count` with the number of chosen peers. -/
def peers_discovered (st : PeerManagerState)
    (results : List (PeerId × Option ℕ)) : List PeerId × PeerManagerState :=
  let cod := connectedOrDialingCount st.db
  let r := peers_discovered_loop cod (max_priority_peers st.target_peers)
    (max_peers st.target_peers) results st.db []
  let to_dial_peers := match st.filters.dial_peer_filter with
    | some f => r.2.filter f
    | none => r.2
  let st1 := maintain_peer_count { st with db := r.1 } to_dial_peers.length
  (to_dial_peers, st1)

/-- One run of the `prune_peers!` macro of `PeerManager::prune_excess_peers`
(`mod.rs` lines 802-834): iterate the worst-connected list, skipping peers
with a future duty and peers failing `filter`; stop when the prune set
reaches the excess; skip peers already selected; an outbound-only peer is
selected only while `target_outbound + outbound_peers_pruned <
connected_outbound_peer_count`. -/
def prune_loop (excess targetOut connOut now : ℕ) (filter : PeerRec → Bool) :
    List (PeerId × PeerRec) → Finset PeerId → ℕ → Finset PeerId × ℕ
  | [], sel, obp => (sel, obp)
  | (p, r) :: rest, sel, obp =>
    if ¬ has_future_duty now r ∧ filter r then
      if excess ≤ sel.card then (sel, obp)
      else if p ∈ sel then prune_loop excess targetOut connOut now filter rest sel obp
      else if is_outbound_only r then
        if targetOut + obp < connOut then
          prune_loop excess targetOut connOut now filter rest (insert p sel) (obp + 1)
        else prune_loop excess targetOut connOut now filter rest sel obp
      else prune_loop excess targetOut connOut now filter rest (insert p sel) obp
    else prune_loop excess targetOut connOut now filter rest sel obp

/-- The selection phase of `prune_excess_peers`: the negative-score pass,
then, if the excess is not covered, the unconditional pass over the same
(unchanged) worst-connected list. -/
def prune_select (excess targetOut connOut now : ℕ)
    (worst : List (PeerId × PeerRec)) : Finset PeerId × ℕ :=
  let s1 := prune_loop excess targetOut connOut now
    (fun r => decide (r.score < 0)) worst ∅ 0
  if s1.1.card < excess then
    prune_loop excess targetOut connOut now (fun _ => true) worst s1.1 s1.2
  else s1

/-- `PeerManager::prune_excess_peers` (`mod.rs` lines 787-990; the
subnet-uniformity phases are commented out in the source).  Each selected
peer is disconnected with `GoodbyeReason::TooManyPeers`; the source iterates
the `HashSet` in arbitrary order, modelled here by the sorted order. -/
def prune_excess_peers (st : PeerManagerState) : PeerManagerState :=
  let connected_peer_count := connectedCount st.db
  if connected_peer_count ≤ st.target_peers then st
  else
    let sel := prune_select (connected_peer_count - st.target_peers)
      (target_outbound_peers st.target_peers)
      (connectedOutboundOnlyCount st.db) st.now
      (worst_connected_peers st.db)
    (sel.1.sort (· ≤ ·)).foldl (fun s p => disconnect_peer s p .TooManyPeers) st

/-- `PeerManager::heartbeat` (`mod.rs` lines 998-1028): maintain the peer
count, clean up stale dialing records, update scores and dispatch the
resulting actions, then prune excess peers (metrics updates do not touch the
modelled state). -/
def heartbeat (st : PeerManagerState) : PeerManagerState :=
  let st1 := maintain_peer_count st 0
  let st2 := { st1 with db := cleanup_dialing_peers st1.db st1.now }
  let r := db_update_scores st2.db
  let st3 := r.2.foldl
    (fun s pa => handle_score_action s pa.1 pa.2 none)
    { st2 with db := r.1 }
  prune_excess_peers st3

/-- `config::Config` (interval durations in whole units; the heartbeat
interval is a `Duration`). -/
structure Config where
  heartbeat_interval : ℕ := 30
  discovery_enabled : Bool := true
  metrics_enabled : Bool := false
  target_peer_count : ℕ := 50
  status_interval : ℕ := 300
  ping_interval_inbound : ℕ := 15
  ping_interval_outbound : ℕ := 20
  filters : Filters := {}

/-- The result of `PeerManager::new`: success, a panic, or a
`ConfigInvalid` error (the last is in the claim's vocabulary; the code has
no path producing it). -/
inductive NewResult
  | ok (st : PeerManagerState)
  | panicked
  | configInvalid

/-- `PeerManager::new` (`mod.rs` lines 101-131).  The function destructures
the config and unconditionally returns `Ok`; the only failure is
`tokio::time::interval`, which panics when `heartbeat_interval` is zero.
The interval parameters of the timer sets are not validated. -/
def PeerManager_new (cfg : Config) : NewResult :=
  if cfg.heartbeat_interval = 0 then .panicked
  else .ok
    { db := []
      inbound_ping_peers := ∅
      outbound_ping_peers := ∅
      status_peers := ∅
      events := []
      target_peers := cfg.target_peer_count
      discovery_enabled := cfg.discovery_enabled
      metrics_enabled := cfg.metrics_enabled
      filters := cfg.filters
      now := 0 }

/-- The subset computation claimed by the specification for
`peers_discovered` (written from the claim's words, for the refinement
comparison): include a candidate iff `should_dial` holds and, at its
position, the chosen-so-far count keeps the total below the applicable
capacity; then drop candidates rejected by the filter. -/
def spec_discover_loop (cod maxPriority maxPeersN : ℕ) (sd : PeerId → Bool) :
    List (PeerId × Option ℕ) → ℕ → List PeerId
  | [], _ => []
  | (p, min_ttl) :: rest, chosen =>
    if sd p ∧ ((min_ttl.isSome ∧ cod + chosen < maxPriority)
        ∨ cod + chosen < maxPeersN) then
      p :: spec_discover_loop cod maxPriority maxPeersN sd rest (chosen + 1)
    else spec_discover_loop cod maxPriority maxPeersN sd rest chosen

/-- The events that the claim's formula for `maintain_peer_count` predicts,
with the subtractions read as saturating (natural) subtraction. -/
def claim_maintain_events (discovery : Bool) (T peer_count outbound dialing : ℕ) :
    List PeerManagerEvent :=
  if discovery then
    let wanted :=
      if peer_count < T - dialing then min 16 ((T - dialing) - peer_count)
      else if outbound < min_outbound_only_peers T
          ∧ peer_count < max_outbound_dialing_peers T then
        min 16 (max_outbound_dialing_peers T - dialing - peer_count)
      else 0
    if 0 < wanted then [.DiscoverPeers wanted] else []
  else []


/-- The set of peer ids carried by outbound-only entries of a list (used to
count outbound-only selections). -/
def outKeys (l : List (PeerId × PeerRec)) : Finset PeerId :=
  ((l.filter (fun pr => is_outbound_only pr.2)).map Prod.fst).toFinset

/-- A concrete five-peer state (all Connected, `target_peers = 3`, discovery
off) used to instantiate the heartbeat capacity statement. -/
def stC2 : PeerManagerState :=
  { db := [
      (0, { status := .Connected 1 1 }),
      (1, { status := .Connected 1 1 }),
      (2, { status := .Connected 0 1 }),
      (3, { status := .Connected 1 0 }),
      (4, { status := .Connected 0 1 })],
    target_peers := 3,
    discovery_enabled := false }

/-! ## Theorems: correctness of the f32 model's components -/

unseal Rat.mul Rat.add Rat.sub Rat.inv in
/-- The `0.1` literal is the correctly rounded decimal. -/
theorem PEER_EXCESS_FACTOR_correct : rnd24 (1/10) = PEER_EXCESS_FACTOR := by decide

unseal Rat.mul Rat.add Rat.sub Rat.inv in
/-- The `0.3` literal is the correctly rounded decimal. -/
theorem TARGET_OUTBOUND_ONLY_FACTOR_correct :
    rnd24 (3/10) = TARGET_OUTBOUND_ONLY_FACTOR := by decide

unseal Rat.mul Rat.add Rat.sub Rat.inv in
/-- The `0.2` literal is the correctly rounded decimal. -/
theorem MIN_OUTBOUND_ONLY_FACTOR_correct :
    rnd24 (2/10) = MIN_OUTBOUND_ONLY_FACTOR := by decide

/-- `log2fuel` meets the base-2 logarithm specification when fuelled. -/
theorem log2fuel_spec : ∀ (f n : ℕ), 0 < n → n < 2^f →
    2 ^ log2fuel f n ≤ n ∧ n < 2 ^ (log2fuel f n + 1) := by
  intro f
  induction f with
  | zero => intro n h0 h1; omega
  | succ f ih =>
    intro n h0 h1
    rw [log2fuel]
    by_cases hn : n ≤ 1
    · simp [hn]; omega
    · simp only [if_neg hn]
      have h2 : 0 < n / 2 := by omega
      have h3 : n / 2 < 2 ^ f := by
        rw [pow_succ] at h1; omega
      obtain ⟨ha, hb⟩ := ih (n / 2) h2 h3
      constructor
      · rw [pow_succ]
        calc 2 ^ log2fuel f (n / 2) * 2 ≤ n / 2 * 2 := by omega
          _ ≤ n := by omega
      · rw [pow_succ]
        omega

/-- `nlog2` is a correct base-2 logarithm below `2^300`. -/
theorem nlog2_spec (n : ℕ) (h0 : 0 < n) (h1 : n < 2^300) :
    2 ^ nlog2 n ≤ n ∧ n < 2 ^ (nlog2 n + 1) :=
  log2fuel_spec 300 n h0 h1

/-- Specification of `floorLog2`: it computes the binade of `x`. -/
theorem floorLog2_spec (x : ℚ) (hlo : 1 / 2^30 ≤ x) (hhi : x < 2^260) :
    (2:ℚ) ^ (floorLog2 x) ≤ x ∧ x < 2 ^ (floorLog2 x + 1) := by
  have h230 : (0:ℚ) < 2^30 := by positivity
  have hx0 : (0:ℚ) < x := lt_of_lt_of_le (by positivity) hlo
  have hfl : (1:ℤ) ≤ ⌊x * 2^30⌋ := by
    rw [Int.le_floor]
    push_cast
    calc (1:ℚ) = (1/2^30) * 2^30 := by ring
      _ ≤ x * 2^30 := by
          apply mul_le_mul_of_nonneg_right hlo (le_of_lt h230)
  set m : ℕ := (⌊x * 2^30⌋).toNat with hm
  have hmpos : 0 < m := by omega
  have hmcast : (m : ℤ) = ⌊x * 2^30⌋ := Int.toNat_of_nonneg (by omega)
  have hmle : (m : ℚ) ≤ x * 2^30 := by
    rw [show ((m:ℚ) = ((m:ℤ):ℚ)) by push_cast; ring, hmcast]
    exact Int.floor_le _
  have hmgt : x * 2^30 < (m:ℚ) + 1 := by
    rw [show ((m:ℚ) = ((m:ℤ):ℚ)) by push_cast; ring, hmcast]
    exact Int.lt_floor_add_one _
  have hmlt : m < 2^300 := by
    by_contra hcon
    push_neg at hcon
    have hc1 : ((2:ℚ)^300 : ℚ) ≤ (m:ℚ) := by exact_mod_cast hcon
    have hc2 : (2:ℚ)^300 ≤ x * 2^30 := le_trans hc1 hmle
    have hx : (2:ℚ)^260 * 2^30 ≤ x * 2^30 := by
      calc (2:ℚ)^260 * 2^30 = 2^290 := by rw [← pow_add]
        _ ≤ 2^300 := by
            apply pow_le_pow_right₀ (by norm_num) (by norm_num)
        _ ≤ x * 2^30 := hc2
    have := le_of_mul_le_mul_right hx h230
    linarith
  obtain ⟨ha, hb⟩ := nlog2_spec m hmpos hmlt
  have haq : (2:ℚ) ^ (nlog2 m) ≤ x * 2^30 := by
    calc (2:ℚ) ^ (nlog2 m) ≤ (m:ℚ) := by exact_mod_cast ha
      _ ≤ x * 2^30 := hmle
  have hbq : x * 2^30 < (2:ℚ) ^ (nlog2 m + 1) := by
    calc x * 2^30 < (m:ℚ) + 1 := hmgt
      _ ≤ (2:ℚ) ^ (nlog2 m + 1) := by exact_mod_cast hb
  have h2ne : (2:ℚ) ≠ 0 := by norm_num
  constructor
  · show (2:ℚ) ^ ((nlog2 m : ℤ) - 30) ≤ x
    rw [zpow_sub₀ h2ne]
    rw [div_le_iff₀ (by positivity)]
    calc (2:ℚ) ^ (nlog2 m : ℤ) = (2:ℚ) ^ (nlog2 m) := by
          rw [zpow_natCast]
      _ ≤ x * 2^30 := haq
      _ = x * (2:ℚ)^(30:ℤ) := by norm_num
  · show x < (2:ℚ) ^ ((nlog2 m : ℤ) - 30 + 1)
    have hsh : ((nlog2 m : ℤ) - 30 + 1) = ((nlog2 m + 1 : ℕ) : ℤ) - 30 := by push_cast; ring
    rw [hsh, zpow_sub₀ h2ne]
    rw [lt_div_iff₀ (by positivity)]
    calc x * (2:ℚ)^(30:ℤ) = x * 2^30 := by norm_num
      _ < (2:ℚ) ^ (nlog2 m + 1) := hbq
      _ = (2:ℚ) ^ ((nlog2 m + 1 : ℕ) : ℤ) := by rw [zpow_natCast]

/-- `roundNE` never rounds up by more than one half. -/
theorem roundNE_le (y : ℚ) : (roundNE y : ℚ) ≤ y + 1/2 := by
  unfold roundNE
  have h1 := Int.floor_le y
  have h2 := Int.lt_floor_add_one y
  split_ifs with ha hb hc <;> push_cast <;> linarith

/-- `roundNE` never rounds down by more than one half. -/
theorem le_roundNE (y : ℚ) : y - 1/2 ≤ (roundNE y : ℚ) := by
  unfold roundNE
  have h1 := Int.floor_le y
  have h2 := Int.lt_floor_add_one y
  split_ifs with ha hb hc <;> push_cast <;> linarith

/-- A value strictly below the midpoint `N + 1/2` rounds to at most `N`. -/
theorem roundNE_le_of_lt (y : ℚ) (N : ℤ) (h : y < (N:ℚ) + 1/2) : roundNE y ≤ N := by
  have h1 := roundNE_le y
  have h2 : (roundNE y : ℚ) < (N:ℚ) + 1 := by linarith
  exact_mod_cast Int.lt_add_one_iff.mp (by exact_mod_cast h2)

/-- Integers are fixed by `roundNE`. -/
theorem roundNE_intCast (m : ℤ) : roundNE (m : ℚ) = m := by
  unfold roundNE
  rw [Int.floor_intCast]
  simp

/-- `rnd24` rounds with relative error at most `2^(-24)`. -/
theorem rnd24_bounds (x : ℚ) (hlo : 1 / 2^30 ≤ x) (hhi : x < 2^260) :
    x - x / 2^24 ≤ rnd24 x ∧ rnd24 x ≤ x + x / 2^24 := by
  have hx0 : (0:ℚ) < x := lt_of_lt_of_le (by positivity) hlo
  have h2ne : (2:ℚ) ≠ 0 := by norm_num
  rw [rnd24, if_neg (not_le.mpr hx0)]
  obtain ⟨hk1, hk2⟩ := floorLog2_spec x hlo hhi
  set k := floorLog2 x with hk
  have hpos1 : (0:ℚ) < 2 ^ (23 - k) := zpow_pos (by norm_num) _
  have hpos2 : (0:ℚ) < 2 ^ (k - 23) := zpow_pos (by norm_num) _
  have hmulinv : (2:ℚ) ^ (23 - k) * 2 ^ (k - 23) = 1 := by
    rw [← zpow_add₀ h2ne]; norm_num
  have hhalf : (2:ℚ)^(k-23) * (1/2) = 2^(k-24) := by
    rw [show (1:ℚ)/2 = 2^(-1 : ℤ) by norm_num, ← zpow_add₀ h2ne]
    congr 1; ring
  have hbound : (2:ℚ)^(k-24) ≤ x / 2^24 := by
    rw [div_eq_mul_inv, show ((2:ℚ)^24)⁻¹ = 2^(-24:ℤ) by
      rw [← zpow_natCast (2:ℚ) 24, ← zpow_neg]; norm_num]
    calc (2:ℚ)^(k-24) = 2^k * 2^(-24:ℤ) := by rw [← zpow_add₀ h2ne]; norm_num; rfl
      _ ≤ x * 2^(-24:ℤ) := by
          apply mul_le_mul_of_nonneg_right hk1 (le_of_lt (zpow_pos (by norm_num) _))
  constructor
  · have hr := le_roundNE (x * 2 ^ (23 - k))
    have h3 : (x * 2^(23-k) - 1/2) * 2^(k-23) ≤ (roundNE (x * 2 ^ (23 - k)) : ℚ) * 2^(k-23) := by
      apply mul_le_mul_of_nonneg_right hr (le_of_lt hpos2)
    calc x - x / 2^24 ≤ x - 2^(k-24) := by linarith
      _ = (x * 2^(23-k) - 1/2) * 2^(k-23) := by
          rw [sub_mul, mul_assoc, hmulinv, mul_one, mul_comm (1/2 : ℚ), hhalf]
      _ ≤ _ := h3
  · have hr := roundNE_le (x * 2 ^ (23 - k))
    have h3 : (roundNE (x * 2 ^ (23 - k)) : ℚ) * 2^(k-23) ≤ (x * 2^(23-k) + 1/2) * 2^(k-23) := by
      apply mul_le_mul_of_nonneg_right hr (le_of_lt hpos2)
    calc (roundNE (x * 2 ^ (23 - k)) : ℚ) * 2^(k-23) ≤ (x * 2^(23-k) + 1/2) * 2^(k-23) := h3
      _ = x + 2^(k-24) := by
          rw [add_mul, mul_assoc, hmulinv, mul_one, mul_comm (1/2 : ℚ), hhalf]
      _ ≤ x + x / 2^24 := by linarith

/-- If `x` is below `n` by more than half an ulp, it rounds to at most `n`. -/
theorem rnd24_le_int (x : ℚ) (n : ℤ) (hlo : 1 / 2^30 ≤ x) (hhi : x < 2^260)
    (hk23 : floorLog2 x ≤ 23)
    (h : x < (n:ℚ) + 2 ^ (floorLog2 x - 24)) : rnd24 x ≤ (n:ℚ) := by
  have hx0 : (0:ℚ) < x := lt_of_lt_of_le (by positivity) hlo
  have h2ne : (2:ℚ) ≠ 0 := by norm_num
  rw [rnd24, if_neg (not_le.mpr hx0)]
  set k := floorLog2 x with hk
  have hpos1 : (0:ℚ) < 2 ^ (23 - k) := zpow_pos (by norm_num) _
  have hpos2 : (0:ℚ) < 2 ^ (k - 23) := zpow_pos (by norm_num) _
  have hmulinv : (2:ℚ) ^ (23 - k) * 2 ^ (k - 23) = 1 := by
    rw [← zpow_add₀ h2ne]; norm_num
  set e : ℕ := (23 - k).toNat with he
  have hee : (23 - k : ℤ) = (e : ℤ) := by omega
  set N : ℤ := n * 2 ^ e with hN
  have hNcast : (N : ℚ) = (n : ℚ) * 2 ^ ((23:ℤ) - k) := by
    rw [hN, hee]
    push_cast
    rw [← zpow_natCast (2:ℚ) e]
  have hyN : x * 2 ^ (23 - k) < (N:ℚ) + 1/2 := by
    rw [hNcast]
    have hmul : x * 2^(23-k) < ((n:ℚ) + 2^(k-24)) * 2^(23-k) := by
      apply mul_lt_mul_of_pos_right h hpos1
    have heq : ((n:ℚ) + 2^(k-24)) * 2^(23-k) = (n:ℚ) * 2^((23:ℤ)-k) + 1/2 := by
      rw [add_mul]
      congr 1
      rw [← zpow_add₀ h2ne]
      norm_num
    linarith
  have hle := roundNE_le_of_lt _ N hyN
  calc (roundNE (x * 2 ^ (23 - k)) : ℚ) * 2^(k-23) ≤ (N:ℚ) * 2^(k-23) := by
        apply mul_le_mul_of_nonneg_right (by exact_mod_cast hle) (le_of_lt hpos2)
    _ = (n:ℚ) := by
        rw [hNcast, mul_assoc, mul_comm ((2:ℚ)^((23:ℤ)-k)) ((2:ℚ)^(k-23)),
          mul_comm ((2:ℚ)^(k-23)) ((2:ℚ)^((23:ℤ)-k)), hmulinv, mul_one]

/-- Naturals below `2^24` are representable in `f32`: `rnd24` fixes them. -/
theorem rnd24_natCast (T : ℕ) (h1 : 1 ≤ T) (h24 : T < 2^24) : rnd24 (T:ℚ) = T := by
  have hx0 : (0:ℚ) < T := by exact_mod_cast h1
  have h2ne : (2:ℚ) ≠ 0 := by norm_num
  rw [rnd24, if_neg (not_le.mpr hx0)]
  have h1q : (1:ℚ) ≤ (T:ℚ) := by exact_mod_cast h1
  have hlo : 1 / 2^30 ≤ (T:ℚ) := le_trans (show (1:ℚ)/2^30 ≤ 1 by norm_num) h1q
  have hhi : (T:ℚ) < 2^260 := by
    calc (T:ℚ) < 2^24 := by exact_mod_cast h24
      _ ≤ 2^260 := by apply pow_le_pow_right₀ (by norm_num) (by norm_num)
  obtain ⟨hk1, hk2⟩ := floorLog2_spec (T:ℚ) hlo hhi
  set k := floorLog2 (T:ℚ) with hk
  have hkge : (0:ℤ) ≤ k := by
    by_contra hcon
    push_neg at hcon
    have hkk : k + 1 ≤ 0 := by omega
    have hz : (2:ℚ) ^ (k+1) ≤ 2 ^ (0:ℤ) := by
      apply zpow_le_zpow_right₀ (by norm_num) hkk
    rw [zpow_zero] at hz
    linarith
  have hklt : k < 24 := by
    by_contra hcon
    push_neg at hcon
    have hz : (2:ℚ) ^ (24:ℤ) ≤ 2 ^ k := by
      apply zpow_le_zpow_right₀ (by norm_num) hcon
    have hz2 : (2:ℚ) ^ (24:ℤ) ≤ (T:ℚ) := le_trans hz hk1
    have h24q : (T:ℚ) < 2^24 := by exact_mod_cast h24
    rw [show ((2:ℚ)^(24:ℤ) = 2^(24:ℕ)) by norm_num] at hz2
    linarith
  set e : ℕ := (23 - k).toNat with he
  have hee : (23 - k : ℤ) = (e : ℤ) := by omega
  have hcast : (T:ℚ) * 2 ^ ((23:ℤ) - k) = ((T * 2^e : ℕ) : ℚ) := by
    rw [hee]
    push_cast
    rw [← zpow_natCast (2:ℚ) e]
  rw [hcast]
  have hint : roundNE ((T * 2^e : ℕ) : ℚ) = ((T * 2^e : ℕ) : ℤ) := by
    have hr := roundNE_intCast ((T * 2^e : ℕ) : ℤ)
    rw [show (((T * 2^e : ℕ) : ℤ) : ℚ) = ((T * 2^e : ℕ) : ℚ) by push_cast; ring] at hr
    exact hr
  rw [hint]
  rw [show ((((T * 2^e : ℕ) : ℤ)) : ℚ) = (T:ℚ) * 2^((23:ℤ)-k) by rw [hcast]; push_cast; ring]
  rw [mul_assoc, ← zpow_add₀ h2ne]
  norm_num

/-- The binade exponent of a value below `2^24` is at most `23`. -/
theorem floorLog2_le_23 (x : ℚ) (hlo : 1 / 2^30 ≤ x) (hhi : x < 2^24) :
    floorLog2 x ≤ 23 := by
  obtain ⟨hk1, _⟩ := floorLog2_spec x hlo
    (lt_trans hhi (by apply pow_lt_pow_right₀ (by norm_num) (by norm_num)))
  by_contra hcon
  push_neg at hcon
  have h24k : (24:ℤ) ≤ floorLog2 x := by omega
  have h1 : (2:ℚ) ^ (24:ℤ) ≤ 2 ^ (floorLog2 x) :=
    zpow_le_zpow_right₀ (by norm_num) h24k
  have h2 : (2:ℚ) ^ (24:ℤ) ≤ x := le_trans h1 hk1
  rw [show ((2:ℚ)^(24:ℤ) = 2^(24:ℕ)) by norm_num] at h2
  linarith

/-- The ceiling of `T·p/q` is within `1 - 1/q` of the value:
`n - 1 + 1/q ≤ T·p/q`. -/
theorem ceil_frac_gap (p q T : ℕ) (hq : 0 < q) :
    (Int.ceil ((T:ℚ) * ((p:ℚ)/q)) : ℚ) - 1 + 1/q ≤ (T:ℚ) * ((p:ℚ)/q) := by
  have hqQ : (0:ℚ) < q := by exact_mod_cast hq
  set tf : ℚ := (T:ℚ) * ((p:ℚ)/q) with htf
  set n : ℤ := Int.ceil tf with hn
  have hlt : (n:ℚ) - 1 < tf := by
    have := Int.ceil_lt_add_one tf
    rw [← hn] at this
    linarith
  have hZ : (n - 1) * (q:ℤ) < (T:ℤ) * (p:ℤ) := by
    have hq1 : ((n:ℚ) - 1) * (q:ℚ) < tf * q := by
      apply mul_lt_mul_of_pos_right hlt hqQ
    have htfq : tf * q = (T:ℚ) * (p:ℚ) := by
      rw [htf]; field_simp
    rw [htfq] at hq1
    exact_mod_cast hq1
  have hZ1 : (n - 1) * (q:ℤ) + 1 ≤ (T:ℤ) * (p:ℤ) := hZ
  have hQ : ((n:ℚ) - 1) * (q:ℚ) + 1 ≤ (T:ℚ) * (p:ℚ) := by exact_mod_cast hZ1
  have hdiv : (((n:ℚ) - 1) * q + 1) / q ≤ ((T:ℚ) * p) / q :=
    (div_le_div_iff_of_pos_right hqQ).mpr hQ
  have hl : (((n:ℚ) - 1) * q + 1) / q = (n:ℚ) - 1 + 1/q := by
    field_simp
  have hr : ((T:ℚ) * p) / q = tf := by
    rw [htf]; ring
  rw [hl, hr] at hdiv
  exact hdiv

/-- When `T·p/q` is not an integer, its ceiling exceeds it by at least `1/q`. -/
theorem ceil_frac_gap_upper (p q T : ℕ) (hq : 0 < q)
    (hne : (T:ℚ) * ((p:ℚ)/q) < (Int.ceil ((T:ℚ) * ((p:ℚ)/q)) : ℚ)) :
    (T:ℚ) * ((p:ℚ)/q) + 1/q ≤ (Int.ceil ((T:ℚ) * ((p:ℚ)/q)) : ℚ) := by
  have hqQ : (0:ℚ) < q := by exact_mod_cast hq
  set tf : ℚ := (T:ℚ) * ((p:ℚ)/q) with htf
  set n : ℤ := Int.ceil tf with hn
  have hZ : (T:ℤ) * (p:ℤ) < n * (q:ℤ) := by
    have hq1 : tf * (q:ℚ) < (n:ℚ) * q := by
      apply mul_lt_mul_of_pos_right hne hqQ
    have htfq : tf * q = (T:ℚ) * (p:ℚ) := by rw [htf]; field_simp
    rw [htfq] at hq1
    exact_mod_cast hq1
  have hZ1 : (T:ℤ) * (p:ℤ) + 1 ≤ n * (q:ℤ) := hZ
  have hQ : (T:ℚ) * (p:ℚ) + 1 ≤ (n:ℚ) * (q:ℚ) := by exact_mod_cast hZ1
  have hdiv : ((T:ℚ) * p + 1) / q ≤ ((n:ℚ) * q) / q :=
    (div_le_div_iff_of_pos_right hqQ).mpr hQ
  have hl : ((T:ℚ) * p + 1) / q = tf + 1/q := by
    rw [htf]; field_simp
  have hr : ((n:ℚ) * q) / q = (n:ℚ) := by
    field_simp
  rw [hl, hr] at hdiv
  exact hdiv

/-- Core exactness lemma for the capacity functions: if `c` is an `f32`
constant lying at or slightly above the exact fraction `p/q`, then for `T`
within the stated bounds the f32 computation `ceil(T·c)` equals the exact
rational `⌈T·p/q⌉`. -/
theorem f32cap_exact (c : ℚ) (p q T : ℕ)
    (hq : 0 < q) (hp : 0 < p)
    (hclo : 1 / 2^30 ≤ c)
    (hcf : (p:ℚ)/q ≤ c)
    (heps : c - (p:ℚ)/q < ((p:ℚ)/q) / 2^25)
    (hTeps : (T:ℚ) * (c - (p:ℚ)/q) < 1/q)
    (hxq : (T:ℚ) * c < 2^24 / q) :
    f32ceilToNat (f32mul (f32ofNat T) c) = ceilMul T ((p:ℚ)/q) := by
  rcases Nat.eq_zero_or_pos T with hT0 | hT1
  · subst hT0
    simp [f32ofNat, f32mul, f32ceilToNat, ceilMul, rnd24]
  have hqQ : (0:ℚ) < q := by exact_mod_cast hq
  have hfpos : (0:ℚ) < (p:ℚ)/q := by
    have : (0:ℚ) < p := by exact_mod_cast hp
    positivity
  have hc0 : (0:ℚ) < c := lt_of_lt_of_le hfpos hcf
  have hT1q : (1:ℚ) ≤ (T:ℚ) := by exact_mod_cast hT1
  have hT0q : (0:ℚ) < (T:ℚ) := by exact_mod_cast hT1
  have hT24 : T < 2^24 := by
    by_contra hcon
    push_neg at hcon
    have h1 : ((2:ℚ)^24 : ℚ) ≤ (T:ℚ) := by exact_mod_cast hcon
    have h2 : ((2:ℚ)^24) * ((p:ℚ)/q) ≤ (T:ℚ) * c := by
      apply mul_le_mul h1 hcf (le_of_lt hfpos) (by positivity)
    have h4 : ((2:ℚ)^24) * ((p:ℚ)/q) < 2^24 / q := lt_of_le_of_lt h2 hxq
    have hpge : (1:ℚ) ≤ (p:ℚ) := by exact_mod_cast hp
    have h5 : (1:ℚ)/q ≤ (p:ℚ)/q := (div_le_div_iff_of_pos_right hqQ).mpr hpge
    have h6 : ((2:ℚ)^24) * ((1:ℚ)/q) ≤ ((2:ℚ)^24) * ((p:ℚ)/q) := by
      apply mul_le_mul_of_nonneg_left h5 (by positivity)
    have h7 : ((2:ℚ)^24) * ((1:ℚ)/q) = 2^24/q := by ring
    linarith
  rw [f32ofNat, rnd24_natCast T hT1 hT24, f32mul]
  set x : ℚ := (T:ℚ) * c with hxdef
  have hx0 : (0:ℚ) < x := by positivity
  have hxlo : 1 / 2^30 ≤ x := by
    calc (1:ℚ)/2^30 ≤ c := hclo
      _ = 1 * c := (one_mul c).symm
      _ ≤ (T:ℚ) * c := by apply mul_le_mul_of_nonneg_right hT1q (le_of_lt hc0)
  have hx24 : x < 2^24 := by
    have hq1 : (1:ℚ) ≤ (q:ℚ) := by exact_mod_cast hq
    calc x < 2^24 / q := hxq
      _ ≤ 2^24 / 1 := by
          apply div_le_div_of_nonneg_left (by norm_num) (by norm_num) hq1
      _ = 2^24 := by norm_num
  have hxhi : x < 2^260 := by
    calc x < 2^24 := hx24
      _ ≤ 2^260 := by apply pow_le_pow_right₀ (by norm_num) (by norm_num)
  have hk23 : floorLog2 x ≤ 23 := floorLog2_le_23 x hxlo hx24
  set tf : ℚ := (T:ℚ) * ((p:ℚ)/q) with htf
  set n : ℤ := Int.ceil tf with hn
  have htf0 : (0:ℚ) < tf := by positivity
  have htfn : tf ≤ (n:ℚ) := Int.le_ceil tf
  have hdelta : x - tf = (T:ℚ) * (c - (p:ℚ)/q) := by rw [hxdef, htf]; ring
  have htfx : tf ≤ x := by
    nlinarith [mul_nonneg (le_of_lt hT0q) (sub_nonneg.mpr hcf)]
  have hupper : rnd24 x ≤ (n:ℚ) := by
    apply rnd24_le_int x n hxlo hxhi hk23
    have hkk : (0:ℚ) < 2 ^ (floorLog2 x - 24) := zpow_pos (by norm_num) _
    rcases eq_or_lt_of_le htfn with heq | hlt
    · have hkub : x / 2^25 < 2 ^ (floorLog2 x - 24) := by
        obtain ⟨_, hk2⟩ := floorLog2_spec x hxlo hxhi
        have h25 : (2:ℚ) ^ (floorLog2 x - 24) = 2 ^ (floorLog2 x + 1) / 2^25 := by
          rw [eq_div_iff (by positivity), ← zpow_natCast (2:ℚ) 25,
            ← zpow_add₀ (show (2:ℚ) ≠ 0 by norm_num)]
          congr 1 <;> omega
        rw [h25]
        exact div_lt_div_of_pos_right hk2 (by positivity)
      have heps2 : x - tf < tf / 2^25 := by
        rw [hdelta, htf]
        calc (T:ℚ) * (c - (p:ℚ)/q) < (T:ℚ) * (((p:ℚ)/q) / 2^25) := by
              apply mul_lt_mul_of_pos_left heps hT0q
          _ = ((T:ℚ) * ((p:ℚ)/q)) / 2^25 := by ring
      have htf25 : tf / 2^25 ≤ x / 2^25 :=
        (div_le_div_iff_of_pos_right (by positivity)).mpr htfx
      calc x < tf + tf / 2^25 := by linarith
        _ ≤ tf + x / 2^25 := by linarith
        _ < (n:ℚ) + 2 ^ (floorLog2 x - 24) := by rw [← heq]; linarith
    · have hgap : tf + 1/q ≤ (n:ℚ) := by
        rw [hn, htf]
        exact ceil_frac_gap_upper p q T hq (by rw [← htf, ← hn]; exact hlt)
      have hxtf : x - tf < 1/q := by rw [hdelta]; exact hTeps
      have hxn : x < (n:ℚ) := by linarith
      linarith
  have hlower : (n:ℚ) - 1 < rnd24 x := by
    obtain ⟨hlb, _⟩ := rnd24_bounds x hxlo hxhi
    have hxq24 : x / 2^24 < 1/q := by
      rw [div_lt_div_iff₀ (by positivity) hqQ]
      rw [lt_div_iff₀ hqQ] at hxq
      linarith
    have hgaplow : (n:ℚ) - 1 + 1/q ≤ tf := by
      rw [hn, htf]
      exact ceil_frac_gap p q T hq
    calc (n:ℚ) - 1 ≤ tf - 1/q := by linarith
      _ ≤ x - 1/q := by linarith
      _ < x - x / 2^24 := by linarith
      _ ≤ rnd24 x := hlb
  have hceil : Int.ceil (rnd24 x) = n := by
    apply le_antisymm
    · exact Int.ceil_le.mpr hupper
    · by_contra hcon
      push_neg at hcon
      have hc1 : Int.ceil (rnd24 x) ≤ n - 1 := by omega
      have hc2 := Int.ceil_le.mp hc1
      push_cast at hc2
      have := Int.le_ceil (rnd24 x)
      linarith
  rw [f32ceilToNat, hceil, ceilMul, ← htf, ← hn]


unseal Rat.mul Rat.add Rat.sub Rat.inv in
/-- Exact value of the f32 expression `1.0 + PEER_EXCESS_FACTOR`. -/
theorem c_max_peers_eval : f32add 1 PEER_EXCESS_FACTOR = 9227469/2^23 := by decide

unseal Rat.mul Rat.add Rat.sub Rat.inv in
/-- Exact value of the f32 expression `1.0 + PEER_EXCESS_FACTOR + PRIORITY_PEER_EXCESS`. -/
theorem c_max_priority_eval :
    f32add (f32add 1 PEER_EXCESS_FACTOR) PRIORITY_PEER_EXCESS = 10905191/2^23 := by decide

unseal Rat.mul Rat.add Rat.sub Rat.inv in
/-- Exact value of the f32 expression
`1.0 + PEER_EXCESS_FACTOR + PRIORITY_PEER_EXCESS / 2.0`. -/
theorem c_max_outbound_dialing_eval :
    f32add (f32add 1 PEER_EXCESS_FACTOR) (PRIORITY_PEER_EXCESS / 2) = 5033165/2^22 := by decide

/-- `max_peers` computes the exact rational ceiling for every `T ≤ 100000`. -/
theorem max_peers_exact (T : ℕ) (hT : T ≤ 100000) :
    max_peers T = ceilMul T (11/10) := by
  have hTq : (T:ℚ) ≤ 100000 := by exact_mod_cast hT
  have h := f32cap_exact (9227469/2^23) 11 10 T (by norm_num) (by norm_num)
    (by norm_num) (by norm_num) (by norm_num)
    (by
      push_cast
      have hd : (9227469/2^23 : ℚ) - 11/10 = 1/41943040 := by norm_num
      rw [hd]
      calc (T:ℚ) * (1/41943040) ≤ 100000 * (1/41943040) := by
            apply mul_le_mul_of_nonneg_right hTq (by norm_num)
        _ < 1/10 := by norm_num)
    (by
      push_cast
      calc (T:ℚ) * (9227469/2^23) ≤ 100000 * (9227469/2^23) := by
            apply mul_le_mul_of_nonneg_right hTq (by norm_num)
        _ < 2^24/10 := by norm_num)
  rw [max_peers, c_max_peers_eval]
  rw [h]
  norm_num

/-- `min_outbound_only_peers` computes the exact rational ceiling for every
`T ≤ 100000`. -/
theorem min_outbound_only_peers_exact (T : ℕ) (hT : T ≤ 100000) :
    min_outbound_only_peers T = ceilMul T (2/10) := by
  have hTq : (T:ℚ) ≤ 100000 := by exact_mod_cast hT
  have h := f32cap_exact (13421773/2^26) 1 5 T (by norm_num) (by norm_num)
    (by norm_num) (by norm_num) (by norm_num)
    (by
      push_cast
      have hd : (13421773/2^26 : ℚ) - 1/5 = 1/335544320 := by norm_num
      rw [hd]
      calc (T:ℚ) * (1/335544320) ≤ 100000 * (1/335544320) := by
            apply mul_le_mul_of_nonneg_right hTq (by norm_num)
        _ < 1/5 := by norm_num)
    (by
      push_cast
      calc (T:ℚ) * (13421773/2^26) ≤ 100000 * (13421773/2^26) := by
            apply mul_le_mul_of_nonneg_right hTq (by norm_num)
        _ < 2^24/5 := by norm_num)
  rw [min_outbound_only_peers,
    show MIN_OUTBOUND_ONLY_FACTOR = 13421773/2^26 from rfl]
  rw [h]
  norm_num


unseal Rat.mul Rat.add Rat.sub Rat.inv in
/-- The three remaining capacity functions compute the exact rational ceiling
on the range `T ≤ 9` (they first deviate at `T = 10`, `25` and `50`). -/
theorem small_range_exact : ∀ T : ℕ, T ≤ 9 →
    max_priority_peers T = ceilMul T (13/10) ∧
    target_outbound_peers T = ceilMul T (3/10) ∧
    max_outbound_dialing_peers T = ceilMul T (12/10) := by decide

/-- `target_outbound_peers T` never exceeds `T` (for every `usize` input). -/
theorem target_outbound_peers_le (T : ℕ) (hT : T < 2^64) :
    target_outbound_peers T ≤ T := by
  rcases Nat.eq_zero_or_pos T with h0 | h1
  · subst h0
    simp [target_outbound_peers, f32ofNat, f32mul, f32ceilToNat, rnd24,
      TARGET_OUTBOUND_ONLY_FACTOR]
  have hT1q : (1:ℚ) ≤ (T:ℚ) := by exact_mod_cast h1
  have hT0q : (0:ℚ) < (T:ℚ) := by linarith
  have hThi : (T:ℚ) < 2^64 := by exact_mod_cast hT
  have htlo : 1 / 2^30 ≤ (T:ℚ) := le_trans (by norm_num) hT1q
  have hthi : (T:ℚ) < 2^260 := by
    calc (T:ℚ) < 2^64 := hThi
      _ ≤ 2^260 := by apply pow_le_pow_right₀ (by norm_num) (by norm_num)
  obtain ⟨hul, huu⟩ := rnd24_bounds (T:ℚ) htlo hthi
  set u : ℚ := rnd24 (T:ℚ) with hu
  have hT24div : (T:ℚ) / 2^24 ≤ (T:ℚ) / 2 := by
    apply div_le_div_of_nonneg_left (le_of_lt hT0q) (by norm_num) (by norm_num)
  have hu_half : 1/2 ≤ u := by
    have hh : (T:ℚ)/2 ≥ 1/2 := by linarith
    linarith
  have hu_pos : (0:ℚ) < u := by linarith
  have hcpos : (0:ℚ) < TARGET_OUTBOUND_ONLY_FACTOR := by
    rw [TARGET_OUTBOUND_ONLY_FACTOR]; norm_num
  set x : ℚ := u * TARGET_OUTBOUND_ONLY_FACTOR with hx
  have hxlo : 1 / 2^30 ≤ x := by
    calc (1:ℚ)/2^30 ≤ (1/2) * TARGET_OUTBOUND_ONLY_FACTOR := by
          rw [TARGET_OUTBOUND_ONLY_FACTOR]; norm_num
      _ ≤ u * TARGET_OUTBOUND_ONLY_FACTOR := by
          apply mul_le_mul_of_nonneg_right hu_half (le_of_lt hcpos)
  have hule : u ≤ 2 * (T:ℚ) := by
    have : (T:ℚ)/2^24 ≤ (T:ℚ) := by linarith
    linarith
  have hxhi : x < 2^260 := by
    have hc1 : TARGET_OUTBOUND_ONLY_FACTOR ≤ 1 := by
      rw [TARGET_OUTBOUND_ONLY_FACTOR]; norm_num
    calc x ≤ u * 1 := by
          apply mul_le_mul_of_nonneg_left hc1 (le_of_lt hu_pos)
      _ = u := mul_one u
      _ ≤ 2 * (T:ℚ) := hule
      _ < 2 * 2^64 := by linarith
      _ ≤ 2^260 := by norm_num
  obtain ⟨_, hxu⟩ := rnd24_bounds x hxlo hxhi
  have hkey : x + x / 2^24 ≤ (T:ℚ) := by
    have h1 : x ≤ ((T:ℚ) + (T:ℚ)/2^24) * TARGET_OUTBOUND_ONLY_FACTOR := by
      apply mul_le_mul_of_nonneg_right huu (le_of_lt hcpos)
    have h2 : ((T:ℚ) + (T:ℚ)/2^24) * TARGET_OUTBOUND_ONLY_FACTOR
        = (T:ℚ) * ((1 + 1/2^24) * TARGET_OUTBOUND_ONLY_FACTOR) := by ring
    have h3 : x ≤ (T:ℚ) * ((1 + 1/2^24) * TARGET_OUTBOUND_ONLY_FACTOR) := by
      rw [← h2]; exact h1
    have h4 : x + x / 2^24 = x * (1 + 1/2^24) := by ring
    have h5 : x * (1 + 1/2^24) ≤
        ((T:ℚ) * ((1 + 1/2^24) * TARGET_OUTBOUND_ONLY_FACTOR)) * (1 + 1/2^24) := by
      apply mul_le_mul_of_nonneg_right h3 (by norm_num)
    have h6 : ((T:ℚ) * ((1 + 1/2^24) * TARGET_OUTBOUND_ONLY_FACTOR)) * (1 + 1/2^24)
        = (T:ℚ) * ((1 + 1/2^24)^2 * TARGET_OUTBOUND_ONLY_FACTOR) := by ring
    have h7 : (1 + 1/2^24 : ℚ)^2 * TARGET_OUTBOUND_ONLY_FACTOR ≤ 1 := by
      rw [TARGET_OUTBOUND_ONLY_FACTOR]; norm_num
    have h8 : (T:ℚ) * ((1 + 1/2^24)^2 * TARGET_OUTBOUND_ONLY_FACTOR) ≤ (T:ℚ) * 1 := by
      apply mul_le_mul_of_nonneg_left h7 (le_of_lt hT0q)
    rw [h4]
    calc x * (1 + 1/2^24) ≤ _ := h5
      _ = _ := h6
      _ ≤ (T:ℚ) * 1 := h8
      _ = (T:ℚ) := mul_one _
  have hrle : rnd24 x ≤ (T:ℚ) := le_trans hxu hkey
  show f32ceilToNat (f32mul (f32ofNat T) TARGET_OUTBOUND_ONLY_FACTOR) ≤ T
  rw [f32ceilToNat, f32mul]
  have hceil : Int.ceil (rnd24 (f32ofNat T * TARGET_OUTBOUND_ONLY_FACTOR)) ≤ (T:ℤ) := by
    apply Int.ceil_le.mpr
    rw [show f32ofNat T = u from rfl, ← hx]
    exact_mod_cast hrle
  exact Int.toNat_le.mpr hceil


/-! ## Theorems for the claims -/

/-- C4: for every RPCError, protocol and direction, `handle_rpc_error`
reports exactly the `PeerAction` given by the specification's RPC-error
table, and reports nothing for the entries the table marks as `return`. -/
theorem C4_rpc_error_map (p : Protocol) (e : RPCError) (d : ConnectionDirection) :
    handle_rpc_error_action p e d = spec_rpc_error_table p e d := by
  cases p <;> cases d <;> cases e <;>
    first
    | rfl
    | (rename_i code; cases code <;> rfl)

unseal Rat.mul Rat.add Rat.sub Rat.inv in
/-- C7 counterexample: at the default `target_peers = 50` the f32
computation of `target_outbound_peers` yields `16`, while the exact rational
ceiling `⌈50 · 0.30⌉` is `15`, so the claimed equality fails. -/
theorem C7_counterexample :
    target_outbound_peers 50 = 16 ∧ ceilMul 50 (3/10) = 15 ∧
    target_outbound_peers 50 ≠ ceilMul 50 (3/10) := by decide

/-- C7 (amended): `max_peers` and `min_outbound_only_peers` compute the
exact rational ceilings `⌈T·1.10⌉` and `⌈T·0.20⌉` for every
`T ≤ 100000`; `max_priority_peers`, `target_outbound_peers` and
`max_outbound_dialing_peers` compute `⌈T·1.30⌉`, `⌈T·0.30⌉` and `⌈T·1.20⌉`
only for `T ≤ 9`: the f32 arithmetic first deviates from the exact product
at `T = 10`, `T = 50` and `T = 25` respectively. -/
theorem C7_amended :
    (∀ T : ℕ, T ≤ 100000 →
      max_peers T = ceilMul T (11/10) ∧
      min_outbound_only_peers T = ceilMul T (2/10)) ∧
    (∀ T : ℕ, T ≤ 9 →
      max_priority_peers T = ceilMul T (13/10) ∧
      target_outbound_peers T = ceilMul T (3/10) ∧
      max_outbound_dialing_peers T = ceilMul T (12/10)) :=
  ⟨fun T hT => ⟨max_peers_exact T hT, min_outbound_only_peers_exact T hT⟩,
   small_range_exact⟩

/-- C7 witness: the amended claim applied at the default `T = 50` (for the
two full-range functions) and at `T = 9` (for the bounded ones). -/
theorem C7_witness :
    max_peers 50 = ceilMul 50 (11/10) ∧
    min_outbound_only_peers 50 = ceilMul 50 (2/10) ∧
    max_priority_peers 9 = ceilMul 9 (13/10) :=
  ⟨(C7_amended.1 50 (by norm_num)).1, (C7_amended.1 50 (by norm_num)).2,
   (C7_amended.2 9 (by norm_num)).1⟩

/-- C8 counterexample: a configuration with all three timer intervals zero
(and a nonzero heartbeat interval) makes `PeerManager::new` succeed rather
than fail with a `ConfigInvalid` error. -/
theorem C8_counterexample :
    (∃ st, PeerManager_new
      { heartbeat_interval := 30, status_interval := 0,
        ping_interval_inbound := 0, ping_interval_outbound := 0,
        target_peer_count := 50 } = .ok st) ∧
    PeerManager_new
      { heartbeat_interval := 30, status_interval := 0,
        ping_interval_inbound := 0, ping_interval_outbound := 0,
        target_peer_count := 50 } ≠ .configInvalid := by
  constructor
  · exact ⟨_, rfl⟩
  · intro h
    simp [PeerManager_new] at h

/-- C8 (amended): `PeerManager::new` never returns a `ConfigInvalid` error;
it succeeds for every configuration with a nonzero heartbeat interval (zero
ping and status intervals included), and a zero heartbeat interval panics
inside tokio's interval constructor instead of producing an error. -/
theorem C8_new_never_config_invalid (cfg : Config) :
    PeerManager_new cfg ≠ .configInvalid ∧
    (PeerManager_new cfg = .panicked ↔ cfg.heartbeat_interval = 0) := by
  by_cases h : cfg.heartbeat_interval = 0 <;>
    simp [PeerManager_new, h]


/-- `usize` subtraction agrees with natural subtraction when it does not
underflow and the result fits. -/
theorem usizeSub_eq (a b : ℕ) (hb : b ≤ a) (ha : a < 2^64) :
    usizeSub a b = a - b := by
  unfold usizeSub
  omega

/-- `maintain_peer_count` never modifies the peer database. -/
theorem maintain_peer_count_db (st : PeerManagerState) (d : ℕ) :
    (maintain_peer_count st d).db = st.db := by
  unfold maintain_peer_count
  by_cases hd : st.discovery_enabled
  · simp only [if_pos hd]
    split
    all_goals first
      | rfl
      | (split <;> first
          | rfl
          | (split <;> rfl))
  · simp [hd]

unseal Rat.mul Rat.add Rat.sub Rat.inv in
/-- C6 counterexample: with `target_peers = 10`, nine connected-or-dialing
peers, no outbound-only peer and four peers just chosen for dialing, the
second branch of `maintain_peer_count` is taken and its unchecked `usize`
subtraction underflows (`12 - 4 - 9`): the release-mode wrap makes the code
emit `DiscoverPeers(16)` (a debug build panics), while the claim's formula
yields `wanted = 0` and hence no event. -/
theorem C6_counterexample :
    (maintain_peer_count
      { db := [(0, { status := .Connected 1 0 }), (1, { status := .Connected 1 0 }),
               (2, { status := .Connected 1 0 }), (3, { status := .Connected 1 0 }),
               (4, { status := .Connected 1 0 }), (5, { status := .Connected 1 0 }),
               (6, { status := .Connected 1 0 }), (7, { status := .Connected 1 0 }),
               (8, { status := .Connected 1 0 })],
        target_peers := 10 } 4).events = [.DiscoverPeers 16] ∧
    claim_maintain_events true 10 9 0 4 = [] := by
  constructor
  · decide
  · decide

/-- C6 (amended): whenever the second branch's subtraction cannot underflow
(`connected_or_dialing ≤ max_outbound_dialing - dialing_now`),
`maintain_peer_count` changes nothing but the event queue, to which it
appends exactly the events of the claim's formula: nothing when discovery is
disabled or `wanted = 0`, and one `DiscoverPeers(wanted)` otherwise, with
`wanted` given by the claimed branch structure.  Without that bound the
subtraction underflows: release builds wrap and emit `DiscoverPeers(16)`,
debug builds panic. -/
theorem C6_maintain_formula (st : PeerManagerState) (d : ℕ)
    (hT : st.target_peers < 2^64)
    (hOD : max_outbound_dialing_peers st.target_peers < 2^64)
    (h : connectedOrDialingCount st.db ≤ max_outbound_dialing_peers st.target_peers - d) :
    maintain_peer_count st d =
      { st with events := (st.events ++
          claim_maintain_events st.discovery_enabled st.target_peers
            (connectedOrDialingCount st.db) (connectedOutboundOnlyCount st.db) d) } := by
  unfold maintain_peer_count claim_maintain_events
  by_cases hdisc : st.discovery_enabled
  · simp only [if_pos hdisc]
    set pc := connectedOrDialingCount st.db with hpc
    set ob := connectedOutboundOnlyCount st.db with hob
    by_cases h1 : pc < st.target_peers - d
    · have hsub : usizeSub (st.target_peers - d) pc = (st.target_peers - d) - pc :=
        usizeSub_eq _ _ (le_of_lt h1) (by omega)
      simp only [if_pos h1, hsub]
      have hw : ¬ (min ((st.target_peers - d) - pc) 16 = 0) := by omega
      have hw2 : 0 < min 16 ((st.target_peers - d) - pc) := by omega
      simp only [if_pos hw2, ne_eq, hw, not_false_eq_true, if_pos]
      rw [pushEvent]
      have : min ((st.target_peers - d) - pc) 16 = min 16 ((st.target_peers - d) - pc) := by
        omega
      rw [this]
    · simp only [if_neg h1]
      by_cases h2 : ob < min_outbound_only_peers st.target_peers
          ∧ pc < max_outbound_dialing_peers st.target_peers
      · have hsub : usizeSub (max_outbound_dialing_peers st.target_peers - d) pc =
            (max_outbound_dialing_peers st.target_peers - d) - pc :=
          usizeSub_eq _ _ h (by omega)
        simp only [if_pos h2, hsub]
        by_cases h3 : (max_outbound_dialing_peers st.target_peers - d) - pc = 0
        · simp only [h3]
          norm_num
        · have hw : ¬ (min ((max_outbound_dialing_peers st.target_peers - d) - pc) 16 = 0) := by
            omega
          have hw2 : 0 < min 16 ((max_outbound_dialing_peers st.target_peers - d) - pc) := by
            omega
          simp only [if_pos hw2, ne_eq, hw, not_false_eq_true, if_pos]
          rw [pushEvent]
          have : min ((max_outbound_dialing_peers st.target_peers - d) - pc) 16 =
              min 16 ((max_outbound_dialing_peers st.target_peers - d) - pc) := by omega
          rw [this]
      · simp only [if_neg h2]
        norm_num
  · have hd' : st.discovery_enabled = false := by
      simpa using hdisc
    rw [hd']
    simp only [Bool.false_eq_true, if_false, List.append_nil]
    conv_rhs => rw [← hd']


unseal Rat.mul Rat.add Rat.sub Rat.inv in
/-- C6 witness: the amended formula applied to the spec's scenario S6
(`target_peers = 10`, four connected peers, discovery enabled, no peers
being dialed): one `DiscoverPeers(6)` event is emitted. -/
theorem C6_witness :
    (maintain_peer_count
      { db := [(0, { status := .Connected 1 0 }), (1, { status := .Connected 1 0 }),
               (2, { status := .Connected 1 0 }), (3, { status := .Connected 1 0 })],
        target_peers := 10 } 0).events = [.DiscoverPeers 6] := by
  rw [C6_maintain_formula _ 0 (by norm_num) (by decide) (by decide)]
  decide

/-- `dbGet` after `dbModify`: only the modified key changes, by `f`. -/
theorem dbGet_dbModify (db : PeerDBM) (q : PeerId) (f : PeerRec → PeerRec) (p : PeerId) :
    dbGet (dbModify db q f) p = if p = q then (dbGet db q).map f else dbGet db p := by
  induction db with
  | nil => simp [dbGet, dbModify]
  | cons hd t ih =>
    obtain ⟨k, r⟩ := hd
    by_cases hqk : q = k
    · subst hqk
      by_cases hpk : p = q <;> simp [dbGet, dbModify, hpk]
    · simp only [dbModify, if_neg hqk]
      by_cases hpk : p = k
      · subst hpk
        have hpq : ¬ p = q := fun hc => hqk hc.symm
        simp [dbGet, hpq]
      · simp [dbGet, hpk, ih, hqk]

/-- `update_min_ttl` does not change whether a peer should be dialed. -/
theorem should_dial_update_min_ttl (db : PeerDBM) (q : PeerId) (t : ℕ) (p : PeerId) :
    should_dial (update_min_ttl db q t) p = should_dial db p := by
  unfold should_dial update_min_ttl
  rw [dbGet_dbModify]
  by_cases h : p = q
  · subst h
    simp only [if_pos rfl]
    cases dbGet db p with
    | none => rfl
    | some r => rfl
  · simp [h]

/-- The admission loop of `peers_discovered` computes exactly the
specification's subset: the accumulated list extends by the candidates that
`should_dial` (evaluated in the starting database, which the loop's
`min_ttl` writes do not affect) and the position-dependent capacity test
admit. -/
theorem peers_discovered_loop_spec (cod mp mx : ℕ) :
    ∀ (results : List (PeerId × Option ℕ)) (db : PeerDBM) (acc : List PeerId),
      (peers_discovered_loop cod mp mx results db acc).2 =
        acc ++ spec_discover_loop cod mp mx (fun p => should_dial db p)
          results acc.length := by
  intro results
  induction results with
  | nil =>
    intro db acc
    simp [peers_discovered_loop, spec_discover_loop]
  | cons hd rest ih =>
    intro db acc
    obtain ⟨p, ttl⟩ := hd
    simp only [peers_discovered_loop, spec_discover_loop]
    by_cases hcap : (ttl.isSome ∧ cod + acc.length < mp) ∨ cod + acc.length < mx
    · by_cases hsd : should_dial db p = true
      · rw [if_pos ⟨hcap, hsd⟩, if_pos ⟨hsd, hcap⟩]
        cases ttl with
        | none =>
          rw [ih db (acc ++ [p])]
          simp
        | some t =>
          rw [ih (update_min_ttl db p t) (acc ++ [p])]
          have hfun : (fun q => should_dial (update_min_ttl db p t) q)
              = (fun q => should_dial db q) := by
            funext q
            exact should_dial_update_min_ttl db p t q
          rw [hfun]
          simp
      · rw [if_neg (by tauto), if_neg (by tauto)]
        exact ih db acc
    · rw [if_neg (by tauto), if_neg (by tauto)]
      exact ih db acc

/-- C5: `peers_discovered` returns exactly the candidates admitted by the
claim's rule; `should_dial` holds and, at the moment the candidate is
considered, `connected_or_dialing` plus the number already chosen is below
`max_priority_peers` when it carries a `min_ttl`, or below `max_peers`
unconditionally; candidates rejected by `dial_peer_filter` (when configured)
are removed from the returned list. -/
theorem C5_peers_discovered_spec (st : PeerManagerState)
    (results : List (PeerId × Option ℕ)) :
    (peers_discovered st results).1 =
      (let base := spec_discover_loop (connectedOrDialingCount st.db)
        (max_priority_peers st.target_peers) (max_peers st.target_peers)
        (fun p => should_dial st.db p) results 0
      match st.filters.dial_peer_filter with
      | some f => base.filter f
      | none => base) := by
  unfold peers_discovered
  have h := peers_discovered_loop_spec (connectedOrDialingCount st.db)
    (max_priority_peers st.target_peers) (max_peers st.target_peers)
    results st.db []
  simp only [List.nil_append, List.length_nil] at h
  simp only [h]

/-- The admission loop can only rewrite `min_ttl` fields: status, score and
the opaque remainder of every record are unchanged. -/
theorem peers_discovered_loop_frame (cod mp mx : ℕ) :
    ∀ (results : List (PeerId × Option ℕ)) (db : PeerDBM) (acc : List PeerId)
      (q : PeerId),
      (dbGet (peers_discovered_loop cod mp mx results db acc).1 q).map PeerRec.status
          = (dbGet db q).map PeerRec.status ∧
      (dbGet (peers_discovered_loop cod mp mx results db acc).1 q).map PeerRec.score
          = (dbGet db q).map PeerRec.score ∧
      (dbGet (peers_discovered_loop cod mp mx results db acc).1 q).map PeerRec.other
          = (dbGet db q).map PeerRec.other := by
  intro results
  induction results with
  | nil =>
    intro db acc q
    simp [peers_discovered_loop]
  | cons hd rest ih =>
    intro db acc q
    obtain ⟨p, ttl⟩ := hd
    simp only [peers_discovered_loop]
    by_cases hc : ((ttl.isSome ∧ cod + acc.length < mp) ∨ cod + acc.length < mx)
        ∧ should_dial db p = true
    · rw [if_pos hc]
      cases ttl with
      | none => exact ih db (acc ++ [p]) q
      | some t =>
        obtain ⟨h1, h2, h3⟩ := ih (update_min_ttl db p t) (acc ++ [p]) q
        rw [h1, h2, h3]
        unfold update_min_ttl
        rw [dbGet_dbModify]
        by_cases hq : q = p
        · subst hq
          refine ⟨?_, ?_, ?_⟩ <;>
            (simp only [if_pos rfl]; cases dbGet db q <;> rfl)
        · simp [hq]
    · rw [if_neg hc]
      exact ih db acc q

unseal Rat.mul Rat.add Rat.sub Rat.inv in
/-- C10: in `peers_discovered` the `min_ttl` of every admitted candidate is
written to the `PeerDB` before `dial_peer_filter` is applied.  First part: a
concrete run in which the filter excludes peer 5 from the returned dial list
while peer 5's `min_ttl` is updated anyway.  Second part (frame): the call
modifies no `PeerDB` field other than `min_ttl` of any peer. -/
theorem C10_min_ttl_frame :
    ((peers_discovered
        { db := [(5, { status := .Disconnected })],
          target_peers := 10,
          discovery_enabled := false,
          filters := { dial_peer_filter := some (fun p => decide (p ≠ 5)) } }
        [(5, some 99)]).1 = [] ∧
      dbGet (peers_discovered
        { db := [(5, { status := .Disconnected })],
          target_peers := 10,
          discovery_enabled := false,
          filters := { dial_peer_filter := some (fun p => decide (p ≠ 5)) } }
        [(5, some 99)]).2.db 5 =
        some { status := .Disconnected, min_ttl := some 99 }) ∧
    (∀ (st : PeerManagerState) (results : List (PeerId × Option ℕ)) (q : PeerId),
      (dbGet (peers_discovered st results).2.db q).map PeerRec.status
          = (dbGet st.db q).map PeerRec.status ∧
      (dbGet (peers_discovered st results).2.db q).map PeerRec.score
          = (dbGet st.db q).map PeerRec.score ∧
      (dbGet (peers_discovered st results).2.db q).map PeerRec.other
          = (dbGet st.db q).map PeerRec.other) := by
  constructor
  · constructor
    · decide
    · decide
  · intro st results q
    have hdb : (peers_discovered st results).2.db =
        (peers_discovered_loop (connectedOrDialingCount st.db)
          (max_priority_peers st.target_peers) (max_peers st.target_peers)
          results st.db []).1 := by
      unfold peers_discovered
      rw [maintain_peer_count_db]
    rw [hdb]
    exact peers_discovered_loop_frame _ _ _ results st.db [] q

unseal Rat.mul Rat.add Rat.sub Rat.inv in
/-- C1 (code behaviour at the failing input): called for a banned peer, the
source's `inject_peer_connection` merely logs an error and proceeds: it
returns `true`, connects the peer in the database and arms its ping and
status timers, contradicting the claimed reject-and-no-state-change
behaviour that the specification adopts as an invariant repair. -/
theorem C1_code_behavior :
    ban_status [(7, { status := .Banned })] 7 = .BannedPeer ∧
    (inject_peer_connection
      { db := [(7, { status := .Banned })], target_peers := 50 }
      7 .IngoingConnected).1 = true ∧
    dbGet (inject_peer_connection
      { db := [(7, { status := .Banned })], target_peers := 50 }
      7 .IngoingConnected).2.db 7 = some { status := .Connected 1 0 } ∧
    7 ∈ (inject_peer_connection
      { db := [(7, { status := .Banned })], target_peers := 50 }
      7 .IngoingConnected).2.inbound_ping_peers ∧
    7 ∈ (inject_peer_connection
      { db := [(7, { status := .Banned })], target_peers := 50 }
      7 .IngoingConnected).2.status_peers := by
  refine ⟨?_, ?_, ?_, ?_, ?_⟩ <;> decide

/-- C9: after `inject_disconnect` returns, the peer is contained in none of
the three timer sets (inbound ping, outbound ping, status), for every prior
state; hence no Ping or Status event for it can be produced until it
connects again. -/
theorem C9_timers_cleared (st : PeerManagerState) (p : PeerId) :
    p ∉ (inject_disconnect st p).inbound_ping_peers ∧
    p ∉ (inject_disconnect st p).outbound_ping_peers ∧
    p ∉ (inject_disconnect st p).status_peers := by
  unfold inject_disconnect
  cases hop : (db_inject_disconnect st.db p).2.1 with
  | none => simp [Finset.not_mem_erase]
  | some op =>
    cases op <;> simp [handle_ban_operation, pushEvent, Finset.not_mem_erase]


/-- Distinct keys determine records: in a list with no duplicate keys, two
entries with the same key are the same entry. -/
theorem nodup_keys_inj (l : List (PeerId × PeerRec))
    (hnd : (l.map Prod.fst).Nodup) {a : PeerId} {r r' : PeerRec}
    (h1 : (a, r) ∈ l) (h2 : (a, r') ∈ l) : r = r' := by
  induction l with
  | nil => cases h1
  | cons hd t ih =>
    obtain ⟨k, s0⟩ := hd
    simp only [List.map_cons, List.nodup_cons] at hnd
    rcases List.mem_cons.mp h1 with he1 | ht1 <;>
      rcases List.mem_cons.mp h2 with he2 | ht2
    · rw [Prod.mk.injEq] at he1 he2
      rw [he1.2, he2.2]
    · rw [Prod.mk.injEq] at he1
      exfalso
      apply hnd.1
      rw [← he1.1]
      exact List.mem_map_of_mem Prod.fst ht2
    · rw [Prod.mk.injEq] at he2
      exfalso
      apply hnd.1
      rw [← he2.1]
      exact List.mem_map_of_mem Prod.fst ht1
    · exact ih hnd.2 ht1 ht2

/-- With no duplicate keys, membership of an entry determines `dbGet`. -/
theorem dbGet_of_mem (db : PeerDBM) (hnd : (db.map Prod.fst).Nodup)
    {p : PeerId} {r : PeerRec} (h : (p, r) ∈ db) : dbGet db p = some r := by
  induction db with
  | nil => cases h
  | cons hd t ih =>
    obtain ⟨k, s0⟩ := hd
    simp only [List.map_cons, List.nodup_cons] at hnd
    rcases List.mem_cons.mp h with he | ht
    · rw [Prod.mk.injEq] at he
      simp [dbGet, he.1, he.2]
    · have hpk : ¬ p = k := by
        intro hc
        subst hc
        exact hnd.1 (List.mem_map_of_mem Prod.fst ht)
      simp only [dbGet, if_neg hpk]
      exact ih hnd.2 ht

/-- A peer id belongs to `outKeys l` exactly when its (unique) entry is
outbound-only. -/
theorem mem_outKeys_iff (l : List (PeerId × PeerRec))
    (hnd : (l.map Prod.fst).Nodup) :
    ∀ pr ∈ l, (pr.1 ∈ outKeys l ↔ is_outbound_only pr.2 = true) := by
  intro pr hpr
  constructor
  · intro hmem
    rw [outKeys, List.mem_toFinset, List.mem_map] at hmem
    obtain ⟨pr', hpr', hkey⟩ := hmem
    rw [List.mem_filter] at hpr'
    have : pr'.2 = pr.2 := by
      have h1 : (pr.1, pr'.2) ∈ l := by
        rw [← hkey]
        exact hpr'.1
      have h2 : (pr.1, pr.2) ∈ l := hpr
      exact nodup_keys_inj l hnd h1 h2
    rw [← this]
    exact hpr'.2
  · intro hout
    rw [outKeys, List.mem_toFinset, List.mem_map]
    exact ⟨pr, List.mem_filter.mpr ⟨hpr, hout⟩, rfl⟩
/-- The running invariant of one `prune_peers!` pass: the outbound-only
members of the prune set are counted exactly by `outbound_peers_pruned`,
which never exceeds `connOut - targetOut`; the set only grows, only up to
`excess`, and only by peers of the list without a future duty that pass the
filter. -/
theorem prune_loop_invariant (excess targetOut connOut now : ℕ)
    (filter : PeerRec → Bool) (O : Finset PeerId) :
    ∀ (l : List (PeerId × PeerRec)) (sel : Finset PeerId) (obp : ℕ),
      (∀ pr ∈ l, (pr.1 ∈ O ↔ is_outbound_only pr.2 = true)) →
      (sel ∩ O).card = obp →
      sel.card ≤ excess →
      obp ≤ connOut - targetOut →
      ((prune_loop excess targetOut connOut now filter l sel obp).1 ∩ O).card
          = (prune_loop excess targetOut connOut now filter l sel obp).2 ∧
      (prune_loop excess targetOut connOut now filter l sel obp).1.card ≤ excess ∧
      (prune_loop excess targetOut connOut now filter l sel obp).2 ≤ connOut - targetOut ∧
      sel ⊆ (prune_loop excess targetOut connOut now filter l sel obp).1 ∧
      obp ≤ (prune_loop excess targetOut connOut now filter l sel obp).2 ∧
      (∀ p ∈ (prune_loop excess targetOut connOut now filter l sel obp).1,
        p ∈ sel ∨ ∃ r, (p, r) ∈ l ∧ has_future_duty now r = false ∧ filter r = true) := by
  intro l
  induction l with
  | nil =>
    intro sel obp hO hcard hselx hobp
    simp only [prune_loop]
    exact ⟨hcard, hselx, hobp, Finset.Subset.refl _, le_refl _,
      fun p hp => Or.inl hp⟩
  | cons hd rest ih =>
    intro sel obp hO hcard hselx hobp
    obtain ⟨p, r⟩ := hd
    have hOrest : ∀ pr ∈ rest, (pr.1 ∈ O ↔ is_outbound_only pr.2 = true) :=
      fun pr hpr => hO pr (List.mem_cons_of_mem _ hpr)
    have hOhd : (p ∈ O ↔ is_outbound_only r = true) := hO (p, r) (List.mem_cons_self _ _)
    simp only [prune_loop]
    by_cases hflt : ¬ has_future_duty now r ∧ filter r = true
    · simp only [if_pos hflt]
      by_cases hbreak : excess ≤ sel.card
      · simp only [if_pos hbreak]
        exact ⟨hcard, hselx, hobp, Finset.Subset.refl _, le_refl _,
          fun q hq => Or.inl hq⟩
      · simp only [if_neg hbreak]
        by_cases hmem : p ∈ sel
        · simp only [if_pos hmem]
          obtain ⟨a, b, c, d, e, f⟩ := ih sel obp hOrest hcard hselx hobp
          refine ⟨a, b, c, d, e, fun q hq => ?_⟩
          rcases f q hq with h | ⟨r', hr', hd', hf'⟩
          · exact Or.inl h
          · exact Or.inr ⟨r', List.mem_cons_of_mem _ hr', hd', hf'⟩
        · simp only [if_neg hmem]
          by_cases hout : is_outbound_only r = true
          · simp only [if_pos hout]
            by_cases hguard : targetOut + obp < connOut
            · simp only [if_pos hguard]
              have hpO : p ∈ O := hOhd.mpr hout
              have hcard' : ((insert p sel) ∩ O).card = obp + 1 := by
                rw [Finset.insert_inter_of_mem hpO]
                rw [Finset.card_insert_of_not_mem (by
                  intro hc
                  exact hmem (Finset.mem_of_mem_inter_left hc))]
                omega
              have hselx' : (insert p sel).card ≤ excess := by
                rw [Finset.card_insert_of_not_mem hmem]
                omega
              have hobp' : obp + 1 ≤ connOut - targetOut := by omega
              obtain ⟨a, b, c, d, e, f⟩ := ih (insert p sel) (obp + 1) hOrest hcard' hselx' hobp'
              refine ⟨a, b, c, ?_, by omega, fun q hq => ?_⟩
              · exact Finset.Subset.trans (Finset.subset_insert p sel) d
              · rcases f q hq with h | ⟨r', hr', hd', hf'⟩
                · rcases Finset.mem_insert.mp h with rfl | h2
                  · exact Or.inr ⟨r, List.mem_cons_self _ _, by
                      simpa using hflt.1, hflt.2⟩
                  · exact Or.inl h2
                · exact Or.inr ⟨r', List.mem_cons_of_mem _ hr', hd', hf'⟩
            · simp only [if_neg hguard]
              obtain ⟨a, b, c, d, e, f⟩ := ih sel obp hOrest hcard hselx hobp
              refine ⟨a, b, c, d, e, fun q hq => ?_⟩
              rcases f q hq with h | ⟨r', hr', hd', hf'⟩
              · exact Or.inl h
              · exact Or.inr ⟨r', List.mem_cons_of_mem _ hr', hd', hf'⟩
          · simp only [if_neg hout]
            have hpO : p ∉ O := fun hc => hout (hOhd.mp hc)
            have hcard' : ((insert p sel) ∩ O).card = obp := by
              rw [Finset.insert_inter_of_not_mem hpO]
              exact hcard
            have hselx' : (insert p sel).card ≤ excess := by
              rw [Finset.card_insert_of_not_mem hmem]
              omega
            obtain ⟨a, b, c, d, e, f⟩ := ih (insert p sel) obp hOrest hcard' hselx' hobp
            refine ⟨a, b, c, ?_, e, fun q hq => ?_⟩
            · exact Finset.Subset.trans (Finset.subset_insert p sel) d
            · rcases f q hq with h | ⟨r', hr', hd', hf'⟩
              · rcases Finset.mem_insert.mp h with rfl | h2
                · exact Or.inr ⟨r, List.mem_cons_self _ _, by
                    simpa using hflt.1, hflt.2⟩
                · exact Or.inl h2
              · exact Or.inr ⟨r', List.mem_cons_of_mem _ hr', hd', hf'⟩
    · simp only [if_neg hflt]
      obtain ⟨a, b, c, d, e, f⟩ := ih sel obp hOrest hcard hselx hobp
      refine ⟨a, b, c, d, e, fun q hq => ?_⟩
      rcases f q hq with h | ⟨r', hr', hd', hf'⟩
      · exact Or.inl h
      · exact Or.inr ⟨r', List.mem_cons_of_mem _ hr', hd', hf'⟩


/-- Completeness of the unconditional pass: unless the prune set already
reached the excess, every listed peer is either duty-exempt, selected, or an
outbound-only peer skipped because the outbound quota was exhausted. -/
theorem prune_loop_complete (excess targetOut connOut now : ℕ)
    (filter : PeerRec → Bool) (hfilter : ∀ r, filter r = true) :
    ∀ (l : List (PeerId × PeerRec)) (sel : Finset PeerId) (obp : ℕ),
      sel.card ≤ excess →
      sel ⊆ (prune_loop excess targetOut connOut now filter l sel obp).1 ∧
      obp ≤ (prune_loop excess targetOut connOut now filter l sel obp).2 ∧
      ((prune_loop excess targetOut connOut now filter l sel obp).1.card = excess ∨
        ∀ pr ∈ l, has_future_duty now pr.2 = true ∨
          pr.1 ∈ (prune_loop excess targetOut connOut now filter l sel obp).1 ∨
          (is_outbound_only pr.2 = true ∧
            connOut ≤ targetOut +
              (prune_loop excess targetOut connOut now filter l sel obp).2)) := by
  intro l
  induction l with
  | nil =>
    intro sel obp hsel
    simp only [prune_loop]
    exact ⟨Finset.Subset.refl _, le_refl _, Or.inr (by simp)⟩
  | cons hd rest ih =>
    intro sel obp hsel
    obtain ⟨p, r⟩ := hd
    simp only [prune_loop]
    by_cases hcond : ¬ has_future_duty now r = true ∧ filter r = true
    case neg =>
      have hduty : has_future_duty now r = true := by
        by_contra hc
        exact hcond ⟨hc, hfilter r⟩
      simp only [if_neg hcond]
      obtain ⟨a, b, c⟩ := ih sel obp hsel
      refine ⟨a, b, ?_⟩
      rcases c with h | h
      · exact Or.inl h
      · refine Or.inr (fun pr hpr => ?_)
        rcases List.mem_cons.mp hpr with rfl | hpr2
        · exact Or.inl hduty
        · exact h pr hpr2
    case pos =>
      simp only [if_pos hcond]
      by_cases hbreak : excess ≤ sel.card
      · simp only [if_pos hbreak]
        exact ⟨Finset.Subset.refl _, le_refl _, Or.inl (le_antisymm hsel hbreak)⟩
      · simp only [if_neg hbreak]
        by_cases hmem : p ∈ sel
        · simp only [if_pos hmem]
          obtain ⟨a, b, c⟩ := ih sel obp hsel
          refine ⟨a, b, ?_⟩
          rcases c with h | h
          · exact Or.inl h
          · refine Or.inr (fun pr hpr => ?_)
            rcases List.mem_cons.mp hpr with rfl | hpr2
            · exact Or.inr (Or.inl (a hmem))
            · exact h pr hpr2
        · simp only [if_neg hmem]
          by_cases hout : is_outbound_only r = true
          · simp only [if_pos hout]
            by_cases hguard : targetOut + obp < connOut
            · simp only [if_pos hguard]
              have hsel' : (insert p sel).card ≤ excess := by
                rw [Finset.card_insert_of_not_mem hmem]
                omega
              obtain ⟨a, b, c⟩ := ih (insert p sel) (obp + 1) hsel'
              refine ⟨Finset.Subset.trans (Finset.subset_insert p sel) a, by omega, ?_⟩
              rcases c with h | h
              · exact Or.inl h
              · refine Or.inr (fun pr hpr => ?_)
                rcases List.mem_cons.mp hpr with rfl | hpr2
                · exact Or.inr (Or.inl (a (Finset.mem_insert_self p sel)))
                · exact h pr hpr2
            · simp only [if_neg hguard]
              obtain ⟨a, b, c⟩ := ih sel obp hsel
              refine ⟨a, b, ?_⟩
              rcases c with h | h
              · exact Or.inl h
              · refine Or.inr (fun pr hpr => ?_)
                rcases List.mem_cons.mp hpr with rfl | hpr2
                · exact Or.inr (Or.inr ⟨hout, by omega⟩)
                · exact h pr hpr2
          · simp only [if_neg hout]
            have hsel' : (insert p sel).card ≤ excess := by
              rw [Finset.card_insert_of_not_mem hmem]
              omega
            obtain ⟨a, b, c⟩ := ih (insert p sel) obp hsel'
            refine ⟨Finset.Subset.trans (Finset.subset_insert p sel) a, b, ?_⟩
            rcases c with h | h
            · exact Or.inl h
            · refine Or.inr (fun pr hpr => ?_)
              rcases List.mem_cons.mp hpr with rfl | hpr2
              · exact Or.inr (Or.inl (a (Finset.mem_insert_self p sel)))
              · exact h pr hpr2


/-- C3: in `prune_excess_peers`' selection (both the negative-score pass and
the unconditional pass), every selected peer has `has_future_duty = false`,
and the number of outbound-only peers selected equals the final
`outbound_peers_pruned` counter, which never exceeds
`connected_outbound_peer_count - target_outbound_peers`: the selection never
drives the outbound-only count below the target. -/
theorem C3_prune_selection (excess targetOut connOut now : ℕ)
    (worst : List (PeerId × PeerRec)) (hnd : (worst.map Prod.fst).Nodup) :
    (∀ p ∈ (prune_select excess targetOut connOut now worst).1,
      ∃ r, (p, r) ∈ worst ∧ has_future_duty now r = false) ∧
    ((prune_select excess targetOut connOut now worst).1 ∩ outKeys worst).card
        = (prune_select excess targetOut connOut now worst).2 ∧
    (prune_select excess targetOut connOut now worst).2 ≤ connOut - targetOut := by
  have hO := mem_outKeys_iff worst hnd
  obtain ⟨a1, b1, c1, d1, e1, f1⟩ :=
    prune_loop_invariant excess targetOut connOut now
      (fun r => decide (r.score < 0)) (outKeys worst) worst ∅ 0 hO
      (by simp) (by simp) (Nat.zero_le _)
  unfold prune_select
  by_cases hc : (prune_loop excess targetOut connOut now
      (fun r => decide (r.score < 0)) worst ∅ 0).1.card < excess
  · simp only [if_pos hc]
    obtain ⟨a2, b2, c2, d2, e2, f2⟩ :=
      prune_loop_invariant excess targetOut connOut now
        (fun _ => true) (outKeys worst) worst
        (prune_loop excess targetOut connOut now
          (fun r => decide (r.score < 0)) worst ∅ 0).1
        (prune_loop excess targetOut connOut now
          (fun r => decide (r.score < 0)) worst ∅ 0).2 hO a1 b1 c1
    refine ⟨fun p hp => ?_, a2, c2⟩
    rcases f2 p hp with hin | ⟨r, hr, hd', _⟩
    · rcases f1 p hin with habs | ⟨r, hr, hd', _⟩
      · exact absurd habs (Finset.not_mem_empty p)
      · exact ⟨r, hr, hd'⟩
    · exact ⟨r, hr, hd'⟩
  · simp only [if_neg hc]
    refine ⟨fun p hp => ?_, a1, c1⟩
    rcases f1 p hp with habs | ⟨r, hr, hd', _⟩
    · exact absurd habs (Finset.not_mem_empty p)
    · exact ⟨r, hr, hd'⟩

/-- C3 witness: the selection invariant at a concrete instance (one excess
peer, one outbound-only and one inbound peer, outbound quota already at the
target): the outbound-only counter of the selection equals the number of
selected outbound-only peers. -/
theorem C3_witness :
    ((prune_select 1 1 1 0
        [(1, { status := .Connected 0 1, score := -1 }),
         (2, { status := .Connected 1 0, score := -2 })]).1 ∩
      outKeys [(1, { status := .Connected 0 1, score := -1 }),
         (2, { status := .Connected 1 0, score := -2 })]).card =
    (prune_select 1 1 1 0
        [(1, { status := .Connected 0 1, score := -1 }),
         (2, { status := .Connected 1 0, score := -2 })]).2 :=
  (C3_prune_selection 1 1 1 0
    [(1, { status := .Connected 0 1, score := -1 }),
     (2, { status := .Connected 1 0, score := -2 })] (by decide)).2.1


/-- `insertByScore` permutes to consing. -/
theorem insertByScore_perm (x : PeerId × PeerRec) (l : List (PeerId × PeerRec)) :
    (insertByScore x l).Perm (x :: l) := by
  induction l with
  | nil => simp [insertByScore]
  | cons y t ih =>
    rw [insertByScore]
    by_cases h : x.2.score ≤ y.2.score
    · simp [h]
    · simp only [if_neg h]
      exact List.Perm.trans (ih.cons y) (List.Perm.swap x y t)

/-- Insertion sort by score is a permutation. -/
theorem sortByScore_perm (l : List (PeerId × PeerRec)) :
    (sortByScore l).Perm l := by
  induction l with
  | nil => simp [sortByScore]
  | cons x t ih =>
    rw [sortByScore]
    exact List.Perm.trans (insertByScore_perm x (sortByScore t)) (ih.cons x)

/-- An outbound-only record is Connected. -/
theorem outbound_only_connected (r : PeerRec)
    (h : is_outbound_only r = true) : isConnectedStatus r.status = true := by
  unfold is_outbound_only at h
  unfold isConnectedStatus
  rcases hs : r.status with _ | ⟨a, b⟩ | _ | _ | _ | _ <;> rw [hs] at h <;>
    first | rfl | exact absurd h (by simp)

/-- `has_future_duty` depends only on `min_ttl`. -/
theorem has_future_duty_congr (now : ℕ) (r r' : PeerRec)
    (h : r.min_ttl = r'.min_ttl) :
    has_future_duty now r = has_future_duty now r' := by
  unfold has_future_duty
  rw [h]

/-- Facts about `worst_connected_peers`: its keys inherit distinctness, its
length is the connected count, its outbound-only entries count the
outbound-only connected peers, and its entries are the Connected entries of
the database. -/
theorem worst_facts (db : PeerDBM) (hnd : (db.map Prod.fst).Nodup) :
    ((worst_connected_peers db).map Prod.fst).Nodup ∧
    (worst_connected_peers db).length = connectedCount db ∧
    ((worst_connected_peers db).countP (fun pr => is_outbound_only pr.2))
      = connectedOutboundOnlyCount db ∧
    (∀ pr ∈ worst_connected_peers db,
      pr ∈ db ∧ isConnectedStatus pr.2.status = true) := by
  have hperm : (worst_connected_peers db).Perm
      (db.filter (fun pr => isConnectedStatus pr.2.status)) :=
    sortByScore_perm _
  have hsub : (db.filter (fun pr => isConnectedStatus pr.2.status)).Sublist db :=
    List.filter_sublist db
  refine ⟨?_, ?_, ?_, ?_⟩
  · have h1 : ((db.filter (fun pr => isConnectedStatus pr.2.status)).map Prod.fst).Nodup :=
      List.Nodup.sublist (List.Sublist.map Prod.fst hsub) hnd
    exact ((hperm.map Prod.fst).nodup_iff).mpr h1
  · rw [hperm.length_eq]
    rw [connectedCount, ← List.countP_eq_length_filter]
  · rw [hperm.countP_eq]
    rw [List.countP_filter, connectedOutboundOnlyCount]
    apply List.countP_congr
    intro pr _
    constructor
    · intro h
      exact (Bool.and_eq_true _ _).mp h |>.1
    · intro h
      exact (Bool.and_eq_true _ _).mpr ⟨h, outbound_only_connected _ h⟩
  · intro pr hpr
    have := hperm.mem_iff.mp hpr
    rw [List.mem_filter] at this
    exact this

/-- The key sequence is untouched by `dbModify`. -/
theorem dbModify_keys (db : PeerDBM) (p : PeerId) (f : PeerRec → PeerRec) :
    (dbModify db p f).map Prod.fst = db.map Prod.fst := by
  induction db with
  | nil => rfl
  | cons hd t ih =>
    obtain ⟨k, r⟩ := hd
    rw [dbModify]
    by_cases h : p = k <;> simp [h, ih]

/-- `notify_disconnecting` of a Connected peer lowers the connected count by
exactly one (only the first entry with that key is read and written). -/
theorem connectedCount_notify (db : PeerDBM) (p : PeerId) (r : PeerRec)
    (hget : dbGet db p = some r) (hc : isConnectedStatus r.status = true) :
    connectedCount (notify_disconnecting db p false) + 1 = connectedCount db := by
  induction db with
  | nil => cases hget
  | cons hd t ih =>
    obtain ⟨k, s0⟩ := hd
    by_cases hpk : p = k
    · rw [dbGet, if_pos hpk] at hget
      injection hget with hinj
      have hcs : isConnectedStatus s0.status = true := by rw [hinj]; exact hc
      rw [notify_disconnecting, dbModify, if_pos hpk]
      rw [connectedCount, connectedCount, List.countP_cons, List.countP_cons]
      rcases hs : s0.status with _ | ⟨a, b⟩ | _ | _ | _ | _ <;>
        first
        | (simp only [hs]; simp [isConnectedStatus]; done)
        | (rw [hs] at hcs; simp [isConnectedStatus] at hcs; done)
    · rw [dbGet, if_neg hpk] at hget
      rw [notify_disconnecting, dbModify, if_neg hpk]
      rw [connectedCount, connectedCount, List.countP_cons, List.countP_cons]
      have := ih hget
      rw [notify_disconnecting] at this
      rw [connectedCount, connectedCount] at this
      omega

/-- `dbGet` at another key is untouched by `notify_disconnecting`. -/
theorem dbGet_notify_ne (db : PeerDBM) (p q : PeerId) (b : Bool) (h : ¬ q = p) :
    dbGet (notify_disconnecting db p b) q = dbGet db q := by
  rw [notify_disconnecting, dbGet_dbModify, if_neg h]

/-- Folding `disconnect_peer` over distinct connected peers lowers the
connected count by their number. -/
theorem fold_disconnect_connectedCount :
    ∀ (ids : List PeerId) (st : PeerManagerState), ids.Nodup →
      (∀ p ∈ ids, ∃ r, dbGet st.db p = some r ∧ isConnectedStatus r.status = true) →
      connectedCount ((ids.foldl (fun s p => disconnect_peer s p .TooManyPeers) st).db)
          + ids.length = connectedCount st.db := by
  intro ids
  induction ids with
  | nil =>
    intro st _ _
    simp
  | cons p rest ih =>
    intro st hnd hconn
    obtain ⟨r, hget, hc⟩ := hconn p (List.mem_cons_self _ _)
    rw [List.foldl_cons]
    have hdb' : (disconnect_peer st p .TooManyPeers).db =
        notify_disconnecting st.db p false := rfl
    have hstep := connectedCount_notify st.db p r hget hc
    have hrest : ∀ q ∈ rest, ∃ r', dbGet (disconnect_peer st p .TooManyPeers).db q = some r'
        ∧ isConnectedStatus r'.status = true := by
      intro q hq
      obtain ⟨r', hg', hc'⟩ := hconn q (List.mem_cons_of_mem _ hq)
      have hne : ¬ q = p := by
        intro hcq
        subst hcq
        exact (List.nodup_cons.mp hnd).1 hq
      rw [hdb', dbGet_notify_ne st.db p q false hne]
      exact ⟨r', hg', hc'⟩
    have := ih (disconnect_peer st p .TooManyPeers) (List.nodup_cons.mp hnd).2 hrest
    rw [hdb'] at this
    rw [List.length_cons]
    omega

/-- `handle_score_action` touches only the event queue. -/
theorem handle_score_action_frame (st : PeerManagerState) (p : PeerId)
    (a : ScoreUpdateResult) (reason : Option GoodbyeReason) :
    (handle_score_action st p a reason).db = st.db ∧
    (handle_score_action st p a reason).target_peers = st.target_peers ∧
    (handle_score_action st p a reason).now = st.now := by
  cases a with
  | Ban op => cases op <;> exact ⟨rfl, rfl, rfl⟩
  | Disconnect => exact ⟨rfl, rfl, rfl⟩
  | NoAction => exact ⟨rfl, rfl, rfl⟩
  | Unbanned ips => exact ⟨rfl, rfl, rfl⟩

/-- Folding `handle_score_action` over a list of actions touches only the
event queue. -/
theorem fold_score_frame :
    ∀ (acts : List (PeerId × ScoreUpdateResult)) (st : PeerManagerState),
      (acts.foldl (fun s pa => handle_score_action s pa.1 pa.2 none) st).db = st.db ∧
      (acts.foldl (fun s pa => handle_score_action s pa.1 pa.2 none) st).target_peers
        = st.target_peers ∧
      (acts.foldl (fun s pa => handle_score_action s pa.1 pa.2 none) st).now = st.now := by
  intro acts
  induction acts with
  | nil => intro st; exact ⟨rfl, rfl, rfl⟩
  | cons pa rest ih =>
    intro st
    rw [List.foldl_cons]
    obtain ⟨h1, h2, h3⟩ := ih (handle_score_action st pa.1 pa.2 none)
    obtain ⟨g1, g2, g3⟩ := handle_score_action_frame st pa.1 pa.2 none
    exact ⟨h1.trans g1, h2.trans g2, h3.trans g3⟩

/-- `maintain_peer_count` touches only the event queue. -/
theorem maintain_peer_count_frame (st : PeerManagerState) (d : ℕ) :
    (maintain_peer_count st d).target_peers = st.target_peers ∧
    (maintain_peer_count st d).now = st.now := by
  unfold maintain_peer_count
  by_cases hd : st.discovery_enabled
  · simp only [if_pos hd]
    constructor <;>
      (split
       all_goals first
         | rfl
         | (split <;> first
             | rfl
             | (split <;> rfl)))
  · simp [hd]

/-- Mapping an entrywise transform that fixes keys, connectedness,
outbound-onlyness and `min_ttl` preserves every quantity the pruning
analysis uses. -/
theorem map_db_facts (db : PeerDBM) (g : (PeerId × PeerRec) → (PeerId × PeerRec))
    (h1 : ∀ pr, (g pr).1 = pr.1)
    (h2 : ∀ pr, isConnectedStatus (g pr).2.status = isConnectedStatus pr.2.status)
    (h3 : ∀ pr, is_outbound_only (g pr).2 = is_outbound_only pr.2)
    (h4 : ∀ pr, (g pr).2.min_ttl = pr.2.min_ttl) :
    connectedCount (db.map g) = connectedCount db ∧
    connectedOutboundOnlyCount (db.map g) = connectedOutboundOnlyCount db ∧
    (db.map g).map Prod.fst = db.map Prod.fst ∧
    (∀ (now : ℕ),
      (∀ pr ∈ db, isConnectedStatus pr.2.status = true → has_future_duty now pr.2 = false) →
      ∀ pr ∈ db.map g, isConnectedStatus pr.2.status = true → has_future_duty now pr.2 = false) := by
  refine ⟨?_, ?_, ?_, ?_⟩
  · rw [connectedCount, connectedCount, List.countP_map]
    apply List.countP_congr
    intro pr _
    simp only [Function.comp_apply]
    rw [h2 pr]
  · rw [connectedOutboundOnlyCount, connectedOutboundOnlyCount, List.countP_map]
    apply List.countP_congr
    intro pr _
    simp only [Function.comp_apply]
    rw [h3 pr]
  · rw [List.map_map]
    apply List.map_congr_left
    intro pr _
    exact h1 pr
  · intro now hduty pr' hpr' hconn'
    obtain ⟨pr, hpr, rfl⟩ := List.mem_map.mp hpr'
    rw [h2 pr] at hconn'
    rw [has_future_duty_congr now (g pr).2 pr.2 (h4 pr)]
    exact hduty pr hpr hconn'

/-- With distinct keys, `outKeys` counts the outbound-only entries. -/
theorem outKeys_card (l : List (PeerId × PeerRec))
    (hnd : (l.map Prod.fst).Nodup) :
    (outKeys l).card = l.countP (fun pr => is_outbound_only pr.2) := by
  rw [outKeys]
  rw [List.toFinset_card_of_nodup (List.Nodup.sublist
    (List.Sublist.map Prod.fst (List.filter_sublist l)) hnd)]
  rw [List.length_map]
  rw [List.countP_eq_length_filter]

/-- `cleanup_dialing_peers` preserves the key sequence, the connected and
outbound-only counts, and duty-freeness: a stale Dialing record merely
becomes Disconnected. -/
theorem cleanup_facts (db : PeerDBM) (now : ℕ) :
    connectedCount (cleanup_dialing_peers db now) = connectedCount db ∧
    connectedOutboundOnlyCount (cleanup_dialing_peers db now)
      = connectedOutboundOnlyCount db ∧
    (cleanup_dialing_peers db now).map Prod.fst = db.map Prod.fst ∧
    (∀ (t : ℕ),
      (∀ pr ∈ db, isConnectedStatus pr.2.status = true →
        has_future_duty t pr.2 = false) →
      ∀ pr ∈ cleanup_dialing_peers db now, isConnectedStatus pr.2.status = true →
        has_future_duty t pr.2 = false) := by
  simp only [cleanup_dialing_peers]
  refine map_db_facts db _ ?_ ?_ ?_ ?_ <;>
    (intro pr
     obtain ⟨p, r⟩ := pr
     rcases hs : r.status with ⟨since⟩ | ⟨a, b⟩ | ⟨w⟩ | _ | _ | _ <;>
       simp only [hs] <;>
       first
       | rfl
       | (split <;> rfl)
       | (split <;> simp [is_outbound_only, isConnectedStatus, hs])
       | simp [is_outbound_only, isConnectedStatus, hs])

/-- The basic facts of the two-pass selection `prune_select`: the
outbound-only members of the result are counted by the final counter, the
result never exceeds the excess, every selected peer has an entry in the
list, and either the excess is reached or every listed peer is duty-bound,
selected, or outbound-only with the outbound quota exhausted. -/
theorem prune_select_facts (excess targetOut connOut now : ℕ)
    (worst : List (PeerId × PeerRec)) (hnd : (worst.map Prod.fst).Nodup) :
    ((prune_select excess targetOut connOut now worst).1 ∩ outKeys worst).card
        = (prune_select excess targetOut connOut now worst).2 ∧
    (prune_select excess targetOut connOut now worst).1.card ≤ excess ∧
    (∀ p ∈ (prune_select excess targetOut connOut now worst).1,
      ∃ r, (p, r) ∈ worst) ∧
    ((prune_select excess targetOut connOut now worst).1.card = excess ∨
      ∀ pr ∈ worst, has_future_duty now pr.2 = true ∨
        pr.1 ∈ (prune_select excess targetOut connOut now worst).1 ∨
        (is_outbound_only pr.2 = true ∧
          connOut ≤ targetOut + (prune_select excess targetOut connOut now worst).2)) := by
  have hO := mem_outKeys_iff worst hnd
  obtain ⟨a1, b1, c1, d1, e1, f1⟩ :=
    prune_loop_invariant excess targetOut connOut now
      (fun r => decide (r.score < 0)) (outKeys worst) worst ∅ 0 hO
      (by simp) (by simp) (Nat.zero_le _)
  unfold prune_select
  by_cases hc : (prune_loop excess targetOut connOut now
      (fun r => decide (r.score < 0)) worst ∅ 0).1.card < excess
  · simp only [if_pos hc]
    obtain ⟨a2, b2, c2, d2, e2, f2⟩ :=
      prune_loop_invariant excess targetOut connOut now
        (fun _ => true) (outKeys worst) worst
        (prune_loop excess targetOut connOut now
          (fun r => decide (r.score < 0)) worst ∅ 0).1
        (prune_loop excess targetOut connOut now
          (fun r => decide (r.score < 0)) worst ∅ 0).2 hO a1 b1 c1
    obtain ⟨g2, h2, i2⟩ :=
      prune_loop_complete excess targetOut connOut now (fun _ => true)
        (fun r => rfl) worst
        (prune_loop excess targetOut connOut now
          (fun r => decide (r.score < 0)) worst ∅ 0).1
        (prune_loop excess targetOut connOut now
          (fun r => decide (r.score < 0)) worst ∅ 0).2 b1
    refine ⟨a2, b2, fun p hp => ?_, i2⟩
    rcases f2 p hp with hin | ⟨r, hr, _, _⟩
    · rcases f1 p hin with habs | ⟨r, hr, _, _⟩
      · exact absurd habs (Finset.not_mem_empty p)
      · exact ⟨r, hr⟩
    · exact ⟨r, hr⟩
  · simp only [if_neg hc]
    refine ⟨a1, b1, fun p hp => ?_,
      Or.inl (le_antisymm b1 (Nat.le_of_not_lt hc))⟩
    rcases f1 p hp with habs | ⟨r, hr, _, _⟩
    · exact absurd habs (Finset.not_mem_empty p)
    · exact ⟨r, hr⟩

/-- The counting argument: when no listed peer has a future duty, the
two-pass selection either reaches the excess, or leaves unselected only
outbound-only peers, of which there are at most `targetOut` once the
outbound quota is exhausted. -/
theorem prune_select_covers (excess targetOut connOut now : ℕ)
    (worst : List (PeerId × PeerRec)) (hnd : (worst.map Prod.fst).Nodup)
    (hduty : ∀ pr ∈ worst, has_future_duty now pr.2 = false)
    (hout : worst.countP (fun pr => is_outbound_only pr.2) = connOut) :
    (prune_select excess targetOut connOut now worst).1.card = excess ∨
    worst.length
      ≤ (prune_select excess targetOut connOut now worst).1.card + targetOut := by
  obtain ⟨hB, hcard_le, hmemS, hcompl⟩ :=
    prune_select_facts excess targetOut connOut now worst hnd
  rcases hcompl with heq | hcomp
  · exact Or.inl heq
  · right
    set S := (prune_select excess targetOut connOut now worst).1 with hS
    set B := (prune_select excess targetOut connOut now worst).2 with hBdef
    set K := (worst.map Prod.fst).toFinset with hK
    set O := outKeys worst with hO
    have hKcard : K.card = worst.length := by
      rw [hK, List.toFinset_card_of_nodup hnd, List.length_map]
    have hSsubK : S ⊆ K := by
      intro p hp
      obtain ⟨rr, hrr⟩ := hmemS p hp
      rw [hK, List.mem_toFinset]
      exact List.mem_map_of_mem Prod.fst hrr
    have hOcard : O.card = connOut := by
      rw [hO, outKeys_card worst hnd, hout]
    have hcover : ∀ p ∈ K, p ∉ S → p ∈ O ∧ connOut ≤ targetOut + B := by
      intro p hpK hpS
      rw [hK, List.mem_toFinset, List.mem_map] at hpK
      obtain ⟨pr, hprw, hpr1⟩ := hpK
      rcases hcomp pr hprw with hdt | hsel | ⟨houtp, hquota⟩
      · rw [hduty pr hprw] at hdt
        cases hdt
      · rw [hpr1] at hsel
        exact absurd hsel hpS
      · refine ⟨?_, hquota⟩
        rw [hO, ← hpr1]
        exact ((mem_outKeys_iff worst hnd) pr hprw).mpr houtp
    by_cases hKS : ∃ p ∈ K, p ∉ S
    · obtain ⟨p0, hp0K, hp0S⟩ := hKS
      have hquota : connOut ≤ targetOut + B := (hcover p0 hp0K hp0S).2
      have hdiff : K \ S ⊆ O \ S := by
        intro p hp
        rw [Finset.mem_sdiff] at hp ⊢
        exact ⟨(hcover p hp.1 hp.2).1, hp.2⟩
      have h1 : (K \ S).card ≤ (O \ S).card := Finset.card_le_card hdiff
      have h2 : (K ∩ S).card + (K \ S).card = K.card :=
        Finset.card_inter_add_card_sdiff K S
      have h3 : (K ∩ S).card = S.card := by
        rw [Finset.inter_eq_right.mpr hSsubK]
      have h4 : (O ∩ S).card + (O \ S).card = O.card :=
        Finset.card_inter_add_card_sdiff O S
      have h5 : (O ∩ S).card = B := by
        rw [Finset.inter_comm]
        exact hB
      omega
    · push_neg at hKS
      have hle : K.card ≤ S.card := Finset.card_le_card (fun p hp => hKS p hp)
      omega

/-- The capacity property of the pruning phase alone: with distinct keys, a
`usize` target and no connected peer holding a future duty,
`prune_excess_peers` leaves at most `target_peers` connected peers. -/
theorem prune_capacity (s : PeerManagerState)
    (hnd : (s.db.map Prod.fst).Nodup)
    (hT : s.target_peers < 2^64)
    (hduty : ∀ pr ∈ s.db, isConnectedStatus pr.2.status = true →
      has_future_duty s.now pr.2 = false) :
    connectedCount (prune_excess_peers s).db ≤ s.target_peers := by
  simp only [prune_excess_peers]
  split
  next hle => exact hle
  next hgt =>
    push_neg at hgt
    obtain ⟨hwnd, hwlen, hwout, hwmem⟩ := worst_facts s.db hnd
    have hdutyW : ∀ pr ∈ worst_connected_peers s.db,
        has_future_duty s.now pr.2 = false := by
      intro pr hpr
      exact hduty pr (hwmem pr hpr).1 (hwmem pr hpr).2
    obtain ⟨hB, hcard_le, hmemS, _⟩ :=
      prune_select_facts (connectedCount s.db - s.target_peers)
        (target_outbound_peers s.target_peers)
        (connectedOutboundOnlyCount s.db) s.now (worst_connected_peers s.db) hwnd
    have hcover := prune_select_covers (connectedCount s.db - s.target_peers)
        (target_outbound_peers s.target_peers)
        (connectedOutboundOnlyCount s.db) s.now (worst_connected_peers s.db)
        hwnd hdutyW hwout
    have hTO : target_outbound_peers s.target_peers ≤ s.target_peers :=
      target_outbound_peers_le s.target_peers hT
    set res := prune_select (connectedCount s.db - s.target_peers)
      (target_outbound_peers s.target_peers)
      (connectedOutboundOnlyCount s.db) s.now (worst_connected_peers s.db)
      with hres
    set ids := Finset.sort (· ≤ ·) res.1 with hids
    have hnd_ids : ids.Nodup := by
      rw [hids]
      exact Finset.sort_nodup _ _
    have hlen : ids.length = res.1.card := by
      rw [hids]
      exact Finset.length_sort _
    have hconn : ∀ p ∈ ids, ∃ rr, dbGet s.db p = some rr ∧
        isConnectedStatus rr.status = true := by
      intro p hp
      rw [hids, Finset.mem_sort] at hp
      obtain ⟨rr, hrr⟩ := hmemS p hp
      exact ⟨rr, dbGet_of_mem s.db hnd (hwmem (p, rr) hrr).1,
        (hwmem (p, rr) hrr).2⟩
    have hfold := fold_disconnect_connectedCount ids s hnd_ids hconn
    rcases hcover with heq | hle2
    · omega
    · omega

/-- C2: for every state whose database has distinct keys, whose
`target_peers` fits in a `usize`, and in which no connected peer has
`has_future_duty = true`, after `heartbeat` the number of connected peers is
at most `target_peers`: the pruning phase removes the full excess despite
the outbound-only protection and the negative-score pass. -/
theorem C2_heartbeat_capacity (st : PeerManagerState)
    (hnd : (st.db.map Prod.fst).Nodup)
    (hT : st.target_peers < 2^64)
    (hduty : ∀ pr ∈ st.db, isConnectedStatus pr.2.status = true →
      has_future_duty st.now pr.2 = false) :
    connectedCount (heartbeat st).db ≤ st.target_peers := by
  set A := maintain_peer_count st 0 with hA
  set D := cleanup_dialing_peers A.db A.now with hD
  set R := db_update_scores D with hR
  set S3 := R.2.foldl (fun s pa => handle_score_action s pa.1 pa.2 none)
    { A with db := R.1 } with hS3
  have hAdb : A.db = st.db := maintain_peer_count_db st 0
  have hAT : A.target_peers = st.target_peers := (maintain_peer_count_frame st 0).1
  have hAnow : A.now = st.now := (maintain_peer_count_frame st 0).2
  have hcf : D.map Prod.fst = A.db.map Prod.fst :=
    (cleanup_facts A.db A.now).2.2.1
  have hcf4 : ∀ (t : ℕ),
      (∀ pr ∈ A.db, isConnectedStatus pr.2.status = true →
        has_future_duty t pr.2 = false) →
      ∀ pr ∈ D, isConnectedStatus pr.2.status = true →
        has_future_duty t pr.2 = false :=
    (cleanup_facts A.db A.now).2.2.2
  have hmap := map_db_facts D
    (fun pr => (pr.1, { pr.2 with score := decayScore pr.2.score }))
    (fun pr => rfl) (fun pr => rfl) (fun pr => rfl) (fun pr => rfl)
  have hfold3 := fold_score_frame R.2 { A with db := R.1 }
  have e1 : S3.db = R.1 := hfold3.1
  have e2 : R.1 = D.map
      (fun pr => (pr.1, { pr.2 with score := decayScore pr.2.score })) := rfl
  have eT : S3.target_peers = st.target_peers := hfold3.2.1.trans hAT
  have eN : S3.now = st.now := hfold3.2.2.trans hAnow
  have hnd3 : (S3.db.map Prod.fst).Nodup := by
    rw [e1, e2, hmap.2.2.1, hcf, hAdb]
    exact hnd
  have hT3 : S3.target_peers < 2^64 := by
    rw [eT]
    exact hT
  have hduty3 : ∀ pr ∈ S3.db, isConnectedStatus pr.2.status = true →
      has_future_duty S3.now pr.2 = false := by
    rw [e1, e2, eN]
    exact hmap.2.2.2 st.now (hcf4 st.now (by rw [hAdb]; exact hduty))
  have hUnf : heartbeat st = prune_excess_peers S3 := rfl
  have hgoal := prune_capacity S3 hnd3 hT3 hduty3
  rw [hUnf, ← eT]
  exact hgoal

/-- C2 witness: the heartbeat capacity theorem applied to the concrete
five-peer state with `target_peers = 3`, all hypotheses discharged by
computation. -/
theorem C2_witness :
    (stC2.db.map Prod.fst).Nodup ∧
    connectedCount (heartbeat stC2).db ≤ stC2.target_peers :=
  ⟨by decide, C2_heartbeat_capacity stC2 (by decide) (by decide) (by decide)⟩

end PeerManagerProof
